import Mathlib

/-!
# A shallow embedding of the smallz4 LZ4 compressor (smallz4.h, v1.3)

This file embeds the core of the `smallz4` LZ4 compressor — the match finder
(`findLongestMatch`), the hash-chain construction of the per-block match-finding
pass, the backwards optimal-parse cost estimator (`estimateCosts`), the token
writer (`selectBestMatches`) and the streaming driver (`compress`) — as
executable Lean functions, together with a model of the LZ4 block decoder from
`smallz4cat.c`, and proves properties of this code.

Bytes are `Nat` values (< 256 in well-formed buffers); buffers are `List Nat`;
the `uint16_t`-indexed ring tables and the `2^20`-entry hash table are modelled
as total functions `Nat → Nat` updated pointwise; `size_t`/`uint32_t`
arithmetic is `Nat` arithmetic (no intermediate value in the modelled code
paths exceeds the respective machine width, except the 32-bit load times the
64-bit hash multiplier, which fits `uint64_t` exactly as in the source).
-/

namespace Smallz4

/-- Minimum length of a real match (LZ4 format). -/
def MinMatch : Nat := 4

/-- No match may start closer than 12 bytes to the block end. -/
def BlockEndNoMatch : Nat := 12

/-- The last 5 bytes of a block must be literals. -/
def BlockEndLiterals : Nat := 5

/-- Maximum match distance (64 KiB sliding window). -/
def MaxDistance : Nat := 65535

/-- Sentinel distance meaning "no previous position". -/
def NoPrevious : Nat := 0

/-- Size of the two ring-indexed distance tables. -/
def PreviousSize : Nat := 65536

/-- Threshold for the very-long self-referencing-match shortcut. -/
def MaxSameLetter : Nat := 19 + 255 * 256

/-- Number of hash bits of the match finder's hash table. -/
def HashBits : Nat := 20

/-- Number of hash table entries. -/
def HashSize : Nat := 1 <<< HashBits

/-- Shift applied to the 32-bit hash product. -/
def HashShift : Nat := 32 - HashBits

/-- LCG multiplier used for hashing (a `uint64_t` in the source). -/
def HashMultiplier : Nat := 22695477

/-- Sentinel for "hash never seen" in `lastHash`. -/
def NoLastHash : Nat := 0x7FFFFFFF

/-- Maximum block size (id 7 of the LZ4 frame format). -/
def MaxBlockSize : Nat := 4 * 1024 * 1024

/-- Size of the driver's input read buffer. -/
def BufferSize : Nat := 64 * 1024

/-- A match candidate: `length ≥ 4` for a real match, the `distance` points
back to the referenced position.  Mirrors `struct Match` of `smallz4.h`
(`Length length; Distance distance;`). -/
structure Match where
  length : Nat
  distance : Nat
  deriving DecidableEq, Repr

/-- The zero-initialized `Match` that `std::vector<Match> matches(blockSize)`
produces in `smallz4.h`. -/
def mdefault : Match := ⟨0, 0⟩

/-- A `Match` is a real match when it is long enough (`length >= MinMatch`). -/
def Match.isMatch (m : Match) : Bool := MinMatch ≤ m.length

/-- Byte of a buffer at an index (reads beyond the buffer yield 0). -/
def byteAt (data : List Nat) (i : Nat) : Nat := data.getD i 0

/-- The little-endian 32-bit word formed by the four bytes at `i`
(`*(const uint32_t*)`). -/
def load32 (data : List Nat) (i : Nat) : Nat :=
  byteAt data i + 256 * byteAt data (i + 1) + 65536 * byteAt data (i + 2) +
    16777216 * byteAt data (i + 3)

/-- `match4`: true if the four bytes at buffer indices `a` and `b` coincide,
compared as 32-bit words as in the source. -/
def match4 (data : List Nat) (a b : Nat) : Bool := load32 data a == load32 data b

/-! ## estimateCosts: the backwards optimal-parse cost pass -/

/-- Extension bytes the cost model charges for a match of length `L`
(`if (length >= 19) currentCost += 1 + (length - 19) / 255`). -/
def mext (L : Nat) : Nat := if 19 ≤ L then 1 + (L - 19) / 255 else 0

/-- The total cost the pass charges for a match of length `L` at position `i`:
token and offset (`1 + 2` bytes) plus length-extension bytes. -/
def matchCost (cost : Nat → Nat) (i L : Nat) : Nat := cost (i + L) + 1 + 2 + mext L

/-- The inner `for (Length length = MinMatch; ...)` loop of `estimateCosts`:
try every candidate length `L ≤ mlen`, keeping the cost-minimal one (ties
prefer longer), with the early-`break` shortcut for very long
self-referencing matches (`distance == 1 && length >= MaxSameLetter`). -/
def tryLengths (cost : Nat → Nat) (i dist mlen : Nat) : Nat → Nat → Nat × Nat → Nat × Nat
  | 0, _, st => st
  | fuel + 1, L, (minCost, bestLength) =>
    if mlen < L then (minCost, bestLength)
    else
      let currentCost := cost (i + L) + 1 + 2
      let currentCost := if 19 ≤ L then currentCost + 1 + (L - 19) / 255 else currentCost
      let st := if currentCost ≤ minCost then (currentCost, L) else (minCost, bestLength)
      if dist = 1 ∧ MaxSameLetter ≤ mlen then
        (cost (i + mlen) + 1 + 2 + 1 + (mlen - 19) / 255, mlen)
      else tryLengths cost i dist mlen fuel (L + 1) st

/-- The cost of encoding position `i` as a literal: `cost[i + 1] + 1`, plus one
extra byte when the literal run up to `posLastMatch` crosses a length-extension
threshold (`numLiterals >= 15 && (numLiterals - 15) % 255 == 0`). -/
def litBase (cost : Nat → Nat) (i posLastMatch : Nat) : Nat :=
  if 15 ≤ posLastMatch - i ∧ (posLastMatch - i - 15) % 255 = 0 then cost (i + 1) + 1 + 1
  else cost (i + 1) + 1

/-- Candidate length clamped so a match never crosses the block border
(`if (match.isMatch() && i + match.length + BlockEndLiterals > blockEnd)
match.length = blockEnd - (i + BlockEndLiterals)`). -/
def clampLen (blockEnd i : Nat) (a : Match) : Nat :=
  if a.isMatch ∧ blockEnd < i + a.length + BlockEndLiterals then
    blockEnd - (i + BlockEndLiterals)
  else a.length

/-- One iteration of the `estimateCosts` loop body for position `i`:
given the candidate `a = matches[i]`, the suffix `cost` function and
`posLastMatch`, return the rewritten `matches[i]`, the value stored into
`cost[i]`, and the new `posLastMatch`. -/
def stepCore (blockEnd i : Nat) (a : Match) (cost : Nat → Nat) (posLastMatch : Nat) :
    Match × Nat × Nat :=
  let minCost0 := litBase cost i posLastMatch
  let mlen := clampLen blockEnd i a
  let r := tryLengths cost i a.distance mlen (mlen + 1) MinMatch (minCost0, 1)
  let bestLength := r.2
  let entry : Match := ⟨bestLength, if bestLength = 1 then NoPrevious else a.distance⟩
  (entry, r.1, if MinMatch ≤ bestLength then i else posLastMatch)

/-- State of the `estimateCosts` pass: the (partially rewritten) match vector,
the cost array (as a function, 0 where not yet written) and `posLastMatch`. -/
structure EState where
  matchv : List Match
  cost : Nat → Nat
  posLastMatch : Nat

/-- Apply `stepCore` for position `i`, writing `matches[i]` and `cost[i]`. -/
def estimateStep (blockEnd i : Nat) (s : EState) : EState :=
  let r := stepCore blockEnd i (s.matchv.getD i mdefault) s.cost s.posLastMatch
  ⟨s.matchv.set i r.1, fun j => if j = i then r.2.1 else s.cost j, r.2.2⟩

/-- Run the pass for positions `k-1, k-2, ..., 0` (the source walks
`i = blockEnd - 6` down to `0`, so the full pass uses `k = blockEnd - 5`). -/
def costLoop (blockEnd : Nat) : Nat → EState → EState
  | 0, s => s
  | k + 1, s => costLoop blockEnd k (estimateStep blockEnd k s)

/-- `estimateCosts` as in `smallz4.h`: rewrite the candidate vector in place
by the backwards optimal-parse pass and return it. -/
def estimateCosts (m : List Match) : List Match :=
  (costLoop m.length (m.length - BlockEndLiterals) ⟨m, fun _ => 0, m.length⟩).matchv

/-- The final cost array of the `estimateCosts` pass (a local variable in the
source, exposed here so that properties of `cost[i]` can be stated). -/
def estimateCostsCost (m : List Match) : Nat → Nat :=
  (costLoop m.length (m.length - BlockEndLiterals) ⟨m, fun _ => 0, m.length⟩).cost

/-! ## findLongestMatch -/

/-- Phase 1 of `findLongestMatch`'s candidate check: scan backward from offset
`c` (the source's `compare = atLeast - 4`, as an offset from `current`) in
4-byte steps while the offset is positive, report whether every compared
4-byte group matches at distance `td`.  `cb` is the buffer index of `current`. -/
def flmBack (data : List Nat) (cb td : Nat) : Nat → Nat → Bool
  | 0, _ => false
  | fuel + 1, c =>
    if c = 0 then true
    else if ¬ match4 data (cb + c) (cb + c - td) then false
    else flmBack data cb td fuel (c - 4)

/-- Phase 2, fast loop: extend offset `c` in 4-byte steps while 4 more bytes
fit below `stopOff` and match at distance `td`. -/
def flmFast (data : List Nat) (cb td stopOff : Nat) : Nat → Nat → Nat
  | 0, c => c
  | fuel + 1, c =>
    if c + 4 ≤ stopOff ∧ match4 data (cb + c) (cb + c - td) then
      flmFast data cb td stopOff fuel (c + 4)
    else c

/-- Phase 2, slow loop: extend offset `c` byte by byte while below `stopOff`
and matching at distance `td`. -/
def flmSlow (data : List Nat) (cb td stopOff : Nat) : Nat → Nat → Nat
  | 0, c => c
  | fuel + 1, c =>
    if c < stopOff ∧ byteAt data (cb + c) = byteAt data (cb + c - td) then
      flmSlow data cb td stopOff fuel (c + 1)
    else c

/-- The match-chain walk of `findLongestMatch`: follow `previous` entries,
accumulating `totalDistance`, for at most `fuel = stepsLeft` candidate checks,
keeping the best `result`.  Mirrors the `while (distance != NoPrevious)` loop
of `smallz4.h` (the check `stepsLeft-- <= 0` happens after fetching the next
distance and before the candidate comparison, exactly as in the source). -/
def flmGo (data : List Nat) (pos begin_ end_ : Nat) (previous : Nat → Nat) :
    Nat → Nat → Nat → Match → Match
  | fuel, distance, totalDistance, result =>
    if distance = NoPrevious then result
    else
      let td := totalDistance + distance
      if MaxDistance < td then result
      else
        let distance' := previous ((pos - td) % PreviousSize)
        match fuel with
        | 0 => result
        | fuel + 1 =>
          if end_ < pos + result.length + 1 then result
          else if flmBack data (pos - begin_) td (result.length - 3 + 1)
              (result.length - 3) = false then
            flmGo data pos begin_ end_ previous fuel distance' td result
          else
            let c := flmSlow data (pos - begin_) td (end_ - pos) (end_ - pos + 1)
              (flmFast data (pos - begin_) td (end_ - pos) (end_ - pos + 1)
                (result.length + 1))
            flmGo data pos begin_ end_ previous fuel distance' td ⟨c, td⟩

/-- `findLongestMatch` of `smallz4.h`: longest match of the bytes at absolute
position `pos` against earlier data, following the `previous` (exact) chain.
The initial result has `length = 1` (the source leaves `distance`
uninitialized there; this embedding fixes it to 0). -/
def findLongestMatch (data : List Nat) (pos begin_ end_ : Nat) (previous : Nat → Nat)
    (maxChainLength : Nat) : Match :=
  flmGo data pos begin_ end_ previous maxChainLength (previous (pos % PreviousSize)) 0 ⟨1, 0⟩

/-! ## The per-block match-finding pass of `compress` -/

/-- Compression levels up to this value use greedy parsing. -/
def ShortChainsGreedy : Nat := 3

/-- Compression levels up to this value (and above greedy) use lazy evaluation. -/
def ShortChainsLazy : Nat := 6

/-- The hash of a 32-bit word:
`((four * HashMultiplier) >> HashShift) & (HashSize - 1)` (the multiplier is a
`uint64_t` in the source, so the product does not wrap). -/
def hashOf (four : Nat) : Nat := ((four * HashMultiplier) >>> HashShift) % HashSize

/-- Pointwise update of a table modelled as a function. -/
def upd (f : Nat → Nat) (k v : Nat) : Nat → Nat := fun r => if r = k then v else f r

/-- The `while (distance != NoPrevious)` hash-chain walk of `compress` that
skips pseudo-matches (hash collisions) until a position whose first four bytes
are exactly `four` is found; returns the resulting cumulative distance (or the
sentinel) together with the possibly pruned `previousHash` table.  `fuel` is an
upper bound on the number of steps (`last` strictly decreases). -/
def chainWalk (data : List Nat) (dataZero four hash : Nat) :
    Nat → Nat → Nat → (Nat → Nat) → Nat × (Nat → Nat)
  | fuel, distance, last, prevHash =>
    if distance = NoPrevious then (distance, prevHash)
    else
      let curFour := load32 data (last - dataZero)
      if curFour = four then (distance, prevHash)
      else if hashOf curFour ≠ hash then (NoPrevious, prevHash)
      else
        let next := prevHash (last % PreviousSize)
        let distance' := distance + next
        if MaxDistance < distance' then
          (NoPrevious, upd prevHash (last % PreviousSize) NoPrevious)
        else
          let last' := last - next
          if next = NoPrevious ∨ last' < dataZero then (NoPrevious, prevHash)
          else
            match fuel with
            | 0 => (distance', prevHash)
            | fuel + 1 => chainWalk data dataZero four hash fuel distance' last' prevHash

/-- State threaded through the match-finding pass: the persistent hash table
and the two ring-indexed distance tables, the per-block candidate vector, and
the greedy/lazy skip bookkeeping. -/
structure MFState where
  lastHash : Nat → Nat
  prevHash : Nat → Nat
  prevExact : Nat → Nat
  matchv : List Match
  skipMatches : Nat
  lazyEvaluation : Bool

/-- The body of the match-finding loop of `compress` for the absolute position
`p` (the source's `i + lastBlock`; `i` may be negative for look-back
positions, so `p` ranges from `lastBlock - lookback`).  All conditions of the
source are re-expressed over absolute positions: `i + BlockEndNoMatch >
blockSize` is `nextBlock < p + BlockEndNoMatch`, `i > 0` is `lastBlock < p`,
`i < 0` is `p < lastBlock`, and `(i + PreviousSize) % PreviousSize` is
`(p + PreviousSize - lastBlock) % PreviousSize`. -/
def matchFinderStep (data : List Nat) (dataZero lastBlock nextBlock maxChainLength : Nat)
    (uncompressed : Bool) (s : MFState) (p : Nat) : MFState :=
  let isGreedy := maxChainLength ≤ ShortChainsGreedy
  let isLazy := ¬ maxChainLength ≤ ShortChainsGreedy ∧ maxChainLength ≤ ShortChainsLazy
  if nextBlock < p + BlockEndNoMatch ∨ uncompressed then s
  else if lastBlock < p ∧ byteAt data (p - dataZero) = byteAt data (p - 1 - dataZero) ∧
      (s.matchv.getD (p - 1 - lastBlock) mdefault).distance = 1 ∧
      MaxSameLetter < (s.matchv.getD (p - 1 - lastBlock) mdefault).length then
    let prevMatch := s.matchv.getD (p - 1 - lastBlock) mdefault
    { s with matchv := s.matchv.set (p - lastBlock) ⟨prevMatch.length - 1, prevMatch.distance⟩ }
  else
    let four := load32 data (p - dataZero)
    let hash := hashOf four
    let last := s.lastHash hash
    let lastHash' := upd s.lastHash hash p
    let prevIndex := (p + PreviousSize - lastBlock) % PreviousSize
    let distance := p - last
    if last = NoLastHash ∨ MaxDistance < distance then
      { s with lastHash := lastHash', prevHash := upd s.prevHash prevIndex NoPrevious,
               prevExact := upd s.prevExact prevIndex NoPrevious }
    else
      let w := chainWalk data dataZero four hash (last + 1) distance last
        (upd s.prevHash prevIndex distance)
      if w.1 = NoPrevious then
        { s with lastHash := lastHash', prevHash := w.2,
                 prevExact := upd s.prevExact prevIndex NoPrevious }
      else
        let prevExact' := upd s.prevExact prevIndex w.1
        if p < lastBlock then
          { s with lastHash := lastHash', prevHash := w.2, prevExact := prevExact' }
        else if 0 < s.skipMatches ∧ ¬ s.lazyEvaluation then
          { s with lastHash := lastHash', prevHash := w.2, prevExact := prevExact',
                   skipMatches := s.skipMatches - 1 }
        else
          let skip0 := s.skipMatches - 1
          let longest := findLongestMatch data p dataZero (nextBlock - BlockEndLiterals + 1)
            prevExact' maxChainLength
          let setLazy := longest.isMatch ∧ (isLazy ∨ isGreedy)
          { lastHash := lastHash', prevHash := w.2, prevExact := prevExact',
            matchv := s.matchv.set (p - lastBlock) longest,
            skipMatches := if setLazy then longest.length else skip0,
            lazyEvaluation := if setLazy then skip0 = 0 else
              (if 0 < s.skipMatches then false else s.lazyEvaluation) }

/-- The full match-finding pass: fold `matchFinderStep` over the positions
`startPos, ..., nextBlock - 1` (with `startPos = lastBlock - lookback`). -/
def matchFinderPass (data : List Nat) (dataZero lastBlock nextBlock maxChainLength : Nat)
    (uncompressed : Bool) (startPos : Nat) (s0 : MFState) : MFState :=
  (List.range (nextBlock - startPos)).foldl
    (fun s j => matchFinderStep data dataZero lastBlock nextBlock maxChainLength uncompressed
      s (startPos + j)) s0

/-- Fresh table state at the start of `compress`. -/
def mfInit (blockSize : Nat) : MFState :=
  ⟨fun _ => NoLastHash, fun _ => NoPrevious, fun _ => NoPrevious,
    List.replicate blockSize mdefault, 0, false⟩

/-- The candidate vector the compressor computes for the first block of
`input` (for inputs of at most `MaxBlockSize` bytes this is the one and only
block): `lastBlock = dataZero = lookback = 0`, `nextBlock = input.length`. -/
def firstBlockMatches (input : List Nat) (maxChainLength : Nat) : List Match :=
  (matchFinderPass input 0 0 input.length maxChainLength (maxChainLength == 0) 0
    (mfInit input.length)).matchv

/-! ## selectBestMatches: the token writer -/

/-- The `while (n >= 255) push 255; push n` run-length extension encoding. -/
def lenBytes : Nat → Nat → List Nat
  | 0, _ => []
  | fuel + 1, n =>
    if 255 ≤ n then 255 :: lenBytes fuel (n - 255) else [n]

/-- The token-emission loop of `selectBestMatches`.  `litFrom`/`litTo` delimit
the current literal run exactly as in the source (`litFrom = litTo` is the
empty run; after a match token the run restarts empty, which the source
represents by resetting both to 0 when it flushed a non-empty run). -/
def sbmGo (m : List Match) (dataBlk : List Nat) : Nat → Nat → Nat → Nat → List Nat
  | 0, _, _, _ => []
  | fuel + 1, offset, litFrom, litTo =>
    if offset < m.length then
      if (m.getD offset mdefault).isMatch then
        let mt := m.getD offset mdefault
        let lastToken := offset + mt.length = m.length
        let numLiterals := litTo - litFrom
        let matchLength := mt.length - 4
        let token := min numLiterals 15 * 16 + (if lastToken then 0 else min matchLength 15)
        token ::
          ((if 15 ≤ numLiterals then lenBytes (numLiterals - 15 + 1) (numLiterals - 15)
              else []) ++
            (dataBlk.drop litFrom).take (litTo - litFrom) ++
            (if lastToken then [] else
              mt.distance % 256 :: (mt.distance >>> 8) % 256 ::
                ((if 15 ≤ matchLength then lenBytes (matchLength - 15 + 1) (matchLength - 15)
                    else []) ++
                  sbmGo m dataBlk fuel (offset + mt.length) 0 0)))
      else
        let litFrom' := if litFrom = litTo then offset else litFrom
        let litTo' := (if litFrom = litTo then offset else litTo) + 1
        if offset + 1 = m.length then
          let numLiterals := litTo' - litFrom'
          let token := min numLiterals 15 * 16
          token ::
            ((if 15 ≤ numLiterals then lenBytes (numLiterals - 15 + 1) (numLiterals - 15)
                else []) ++
              (dataBlk.drop litFrom').take (litTo' - litFrom'))
        else sbmGo m dataBlk fuel (offset + 1) litFrom' litTo'
    else []

/-- `selectBestMatches` of `smallz4.h`: serialize the decided per-position
vector into LZ4 block bytes; `dataBlk` points at the block's first byte. -/
def selectBestMatches (m : List Match) (dataBlk : List Nat) : List Nat :=
  sbmGo m dataBlk (m.length + 1) 0 0 0

/-! ## The LZ4 block decoder (from `smallz4cat.c`, flat history)

The decoder of `smallz4cat.c` maintains a 64 KiB ring buffer that it flushes
to the output; a conforming decoder over a flat history list is used here
(identical behavior for outputs below 64 KiB, which covers everything this
file decodes).  Malformed input (`error(...)` calls, or running out of input
bytes) yields `none`. -/

/-- Read the 255-escaped length extension
(`do { current = getByte(); n += current; } while (current == 255)`). -/
def readExtLen (acc : Nat) : List Nat → Option (Nat × List Nat)
  | [] => none
  | b :: rest => if b = 255 then readExtLen (acc + 255) rest else some (acc + b, rest)

/-- Copy `len` match bytes, each read `delta` back from the current end of the
history (handles overlap byte-by-byte like the source's slow path). -/
def matchCopy (delta : Nat) : Nat → List Nat → List Nat
  | 0, hist => hist
  | k + 1, hist => matchCopy delta k (hist ++ [hist.getD (hist.length - delta) 0])

/-- Token-decoding loop for one LZ4 block: consume one token per iteration
until the block's bytes are exhausted. -/
def decodeLoop : Nat → List Nat → List Nat → Option (List Nat)
  | 0, _, _ => none
  | fuel + 1, input, hist =>
    match input with
    | [] => some hist
    | token :: rest =>
      let nl := token >>> 4 % 16
      match (if nl = 15 then readExtLen 15 rest else some (nl, rest)) with
      | none => none
      | some (numLiterals, rest) =>
        if rest.length < numLiterals then none
        else
          let hist := hist ++ rest.take numLiterals
          let rest := rest.drop numLiterals
          match rest with
          | [] => some hist
          | d0 :: rest =>
            match rest with
            | [] => none
            | d1 :: rest =>
              let delta := d0 + 256 * d1
              if delta = 0 then none
              else
                match (if token % 16 = 15 then readExtLen (4 + 15) rest
                  else some (4 + token % 16, rest)) with
                | none => none
                | some (matchLength, rest) =>
                  if hist.length < delta then none
                  else decodeLoop fuel rest (matchCopy delta matchLength hist)

/-- Decode one LZ4 block payload with a conforming decoder. -/
def lz4DecodeBlock (input : List Nat) : Option (List Nat) :=
  decodeLoop (input.length + 1) input []

/-- `n` is the minimum possible byte length of an LZ4 block encoding of
`out`. -/
def isMinEncSize (n : Nat) (out : List Nat) : Prop :=
  (∃ bs : List Nat, bs.length = n ∧ lz4DecodeBlock bs = some out) ∧
    ∀ bs : List Nat, lz4DecodeBlock bs = some out → n ≤ bs.length

/-! ## The streaming driver `compress` -/

/-- Frame-format id of the only block size the compressor emits (4 MiB). -/
def MaxBlockSizeId : Nat := 7

/-- Driver state: pending input, the sliding data buffer with its absolute
base `dataZero`, read/block positions, and the persistent tables. -/
structure CState where
  remaining : List Nat
  data : List Nat
  dataZero : Nat
  numRead : Nat
  nextBlock : Nat
  lastHash : Nat → Nat
  prevHash : Nat → Nat
  prevExact : Nat → Nat

/-- The read loop of `compress`: pull up to `BufferSize` bytes per call from
the pending input until a block's worth of data is available or input is
exhausted (`getBytes` returning 0 models EOF). -/
def readLoop : Nat → CState → CState
  | 0, s => s
  | fuel + 1, s =>
    if s.numRead - s.nextBlock < MaxBlockSize then
      if min BufferSize s.remaining.length = 0 then s
      else
        readLoop fuel
          { s with remaining := s.remaining.drop (min BufferSize s.remaining.length),
                   data := s.data ++ s.remaining.take (min BufferSize s.remaining.length),
                   numRead := s.numRead + min BufferSize s.remaining.length }
    else s

/-- The block loop of `compress` (non-legacy path): read, delimit the block,
run the match finder, optionally `estimateCosts`, serialize, frame with the
tagged size word, trim the buffer to the last 64 KiB, repeat.  `fuel` bounds
the number of blocks (each consumes at least one input byte). -/
def blockLoop (maxChainLength : Nat) (uncompressed : Bool) : Nat → CState → List Nat
  | 0, _ => []
  | fuel + 1, s0 =>
    let s := readLoop (s0.remaining.length + 1) s0
    if s.nextBlock = s.numRead then []
    else
      let lastBlock := s.nextBlock
      let nextBlock := min (lastBlock + MaxBlockSize) s.numRead
      let blockSize := nextBlock - lastBlock
      let lookback := if BlockEndNoMatch < s.dataZero then BlockEndNoMatch else s.dataZero
      let ms := matchFinderPass s.data s.dataZero lastBlock nextBlock maxChainLength
        uncompressed (lastBlock - lookback)
        ⟨s.lastHash, s.prevHash, s.prevExact, List.replicate blockSize mdefault, 0, false⟩
      let matchv := if BlockEndNoMatch < blockSize ∧ ShortChainsGreedy < maxChainLength then
          estimateCosts ms.matchv
        else ms.matchv
      let blockBytes := if uncompressed then [] else
        selectBestMatches matchv (s.data.drop (lastBlock - s.dataZero))
      let useCompression := blockBytes.length < blockSize ∧ ¬ uncompressed
      let numBytes := if useCompression then blockBytes.length else blockSize
      let numBytesTagged := numBytes + if useCompression then 0 else 0x80000000
      let payload := if useCompression then blockBytes
        else (s.data.drop (lastBlock - s.dataZero)).take numBytes
      let trim := s.data.length - MaxDistance
      numBytesTagged % 256 :: numBytesTagged >>> 8 % 256 :: numBytesTagged >>> 16 % 256 ::
        numBytesTagged >>> 24 % 256 ::
        (payload ++ blockLoop maxChainLength uncompressed fuel
          { remaining := s.remaining,
            data := if MaxDistance < s.data.length then s.data.drop trim else s.data,
            dataZero := if MaxDistance < s.data.length then s.dataZero + trim else s.dataZero,
            numRead := s.numRead, nextBlock := nextBlock,
            lastHash := ms.lastHash, prevHash := ms.prevHash, prevExact := ms.prevExact })

/-- `compress` of `smallz4.h` (modern frame format, no dictionary): the fixed
7-byte frame header, the blocks, and the 4-byte end-of-stream marker. -/
def compress (input : List Nat) (maxChainLength : Nat) : List Nat :=
  [0x04, 0x22, 0x4D, 0x18, 1 <<< 6, MaxBlockSizeId <<< 4, 0xDF] ++
    blockLoop maxChainLength (maxChainLength == 0) (input.length + 1)
      ⟨input, [], 0, 0, 0, fun _ => NoLastHash, fun _ => NoPrevious, fun _ => NoPrevious⟩ ++
    [0, 0, 0, 0]

/-! ## The compressor with the indeterminate initial distance made explicit

`findLongestMatch` declares `Match result;` and assigns only
`result.length = 1`: when no candidate wins, the returned `distance` is the
uninitialized field.  The `U`-suffixed definitions are the same functions
with that indeterminate value as an explicit parameter `u` (the plain
definitions above fix it to 0). -/

def findLongestMatchU (data : List Nat) (pos begin_ end_ : Nat) (previous : Nat → Nat)
    (maxChainLength u : Nat) : Match :=
  flmGo data pos begin_ end_ previous maxChainLength (previous (pos % PreviousSize)) 0 ⟨1, u⟩

def matchFinderStepU (data : List Nat) (dataZero lastBlock nextBlock maxChainLength u : Nat)
    (uncompressed : Bool) (s : MFState) (p : Nat) : MFState :=
  let isGreedy := maxChainLength ≤ ShortChainsGreedy
  let isLazy := ¬ maxChainLength ≤ ShortChainsGreedy ∧ maxChainLength ≤ ShortChainsLazy
  if nextBlock < p + BlockEndNoMatch ∨ uncompressed then s
  else if lastBlock < p ∧ byteAt data (p - dataZero) = byteAt data (p - 1 - dataZero) ∧
      (s.matchv.getD (p - 1 - lastBlock) mdefault).distance = 1 ∧
      MaxSameLetter < (s.matchv.getD (p - 1 - lastBlock) mdefault).length then
    let prevMatch := s.matchv.getD (p - 1 - lastBlock) mdefault
    { s with matchv := s.matchv.set (p - lastBlock) ⟨prevMatch.length - 1, prevMatch.distance⟩ }
  else
    let four := load32 data (p - dataZero)
    let hash := hashOf four
    let last := s.lastHash hash
    let lastHash' := upd s.lastHash hash p
    let prevIndex := (p + PreviousSize - lastBlock) % PreviousSize
    let distance := p - last
    if last = NoLastHash ∨ MaxDistance < distance then
      { s with lastHash := lastHash', prevHash := upd s.prevHash prevIndex NoPrevious,
               prevExact := upd s.prevExact prevIndex NoPrevious }
    else
      let w := chainWalk data dataZero four hash (last + 1) distance last
        (upd s.prevHash prevIndex distance)
      if w.1 = NoPrevious then
        { s with lastHash := lastHash', prevHash := w.2,
                 prevExact := upd s.prevExact prevIndex NoPrevious }
      else
        let prevExact' := upd s.prevExact prevIndex w.1
        if p < lastBlock then
          { s with lastHash := lastHash', prevHash := w.2, prevExact := prevExact' }
        else if 0 < s.skipMatches ∧ ¬ s.lazyEvaluation then
          { s with lastHash := lastHash', prevHash := w.2, prevExact := prevExact',
                   skipMatches := s.skipMatches - 1 }
        else
          let skip0 := s.skipMatches - 1
          let longest := findLongestMatchU data p dataZero (nextBlock - BlockEndLiterals + 1)
            prevExact' maxChainLength u
          let setLazy := longest.isMatch ∧ (isLazy ∨ isGreedy)
          { lastHash := lastHash', prevHash := w.2, prevExact := prevExact',
            matchv := s.matchv.set (p - lastBlock) longest,
            skipMatches := if setLazy then longest.length else skip0,
            lazyEvaluation := if setLazy then skip0 = 0 else
              (if 0 < s.skipMatches then false else s.lazyEvaluation) }

def matchFinderPassU (data : List Nat) (dataZero lastBlock nextBlock maxChainLength u : Nat)
    (uncompressed : Bool) (startPos : Nat) (s0 : MFState) : MFState :=
  (List.range (nextBlock - startPos)).foldl
    (fun s j => matchFinderStepU data dataZero lastBlock nextBlock maxChainLength u
      uncompressed s (startPos + j)) s0

def blockLoopU (maxChainLength u : Nat) (uncompressed : Bool) : Nat → CState → List Nat
  | 0, _ => []
  | fuel + 1, s0 =>
    let s := readLoop (s0.remaining.length + 1) s0
    if s.nextBlock = s.numRead then []
    else
      let lastBlock := s.nextBlock
      let nextBlock := min (lastBlock + MaxBlockSize) s.numRead
      let blockSize := nextBlock - lastBlock
      let lookback := if BlockEndNoMatch < s.dataZero then BlockEndNoMatch else s.dataZero
      let ms := matchFinderPassU s.data s.dataZero lastBlock nextBlock maxChainLength u
        uncompressed (lastBlock - lookback)
        ⟨s.lastHash, s.prevHash, s.prevExact, List.replicate blockSize mdefault, 0, false⟩
      let matchv := if BlockEndNoMatch < blockSize ∧ ShortChainsGreedy < maxChainLength then
          estimateCosts ms.matchv
        else ms.matchv
      let blockBytes := if uncompressed then [] else
        selectBestMatches matchv (s.data.drop (lastBlock - s.dataZero))
      let useCompression := blockBytes.length < blockSize ∧ ¬ uncompressed
      let numBytes := if useCompression then blockBytes.length else blockSize
      let numBytesTagged := numBytes + if useCompression then 0 else 0x80000000
      let payload := if useCompression then blockBytes
        else (s.data.drop (lastBlock - s.dataZero)).take numBytes
      let trim := s.data.length - MaxDistance
      numBytesTagged % 256 :: numBytesTagged >>> 8 % 256 :: numBytesTagged >>> 16 % 256 ::
        numBytesTagged >>> 24 % 256 ::
        (payload ++ blockLoopU maxChainLength u uncompressed fuel
          { remaining := s.remaining,
            data := if MaxDistance < s.data.length then s.data.drop trim else s.data,
            dataZero := if MaxDistance < s.data.length then s.dataZero + trim else s.dataZero,
            numRead := s.numRead, nextBlock := nextBlock,
            lastHash := ms.lastHash, prevHash := ms.prevHash, prevExact := ms.prevExact })

def compressU (input : List Nat) (maxChainLength u : Nat) : List Nat :=
  [0x04, 0x22, 0x4D, 0x18, 1 <<< 6, MaxBlockSizeId <<< 4, 0xDF] ++
    blockLoopU maxChainLength u (maxChainLength == 0) (input.length + 1)
      ⟨input, [], 0, 0, 0, fun _ => NoLastHash, fun _ => NoPrevious, fun _ => NoPrevious⟩ ++
    [0, 0, 0, 0]

/-! ## Specification-side definitions used by the theorem statements -/

/-- Two match entries that behave identically downstream: equal, or both
literal placeholders (length 1, whose distance is never read). -/
def MRel (a b : Match) : Prop := a = b ∨ (a.length = 1 ∧ b.length = 1)

/-- Pointwise `MRel` on candidate vectors of equal length. -/
def MVRel (x y : List Match) : Prop :=
  x.length = y.length ∧ ∀ i, MRel (x.getD i mdefault) (y.getD i mdefault)

/-- Match-finder states that agree except possibly on literal-entry
distances. -/
def MFRel (s t : MFState) : Prop :=
  s.lastHash = t.lastHash ∧ s.prevHash = t.prevHash ∧ s.prevExact = t.prevExact ∧
    MVRel s.matchv t.matchv ∧ s.skipMatches = t.skipMatches ∧
    s.lazyEvaluation = t.lazyEvaluation

/-- Number of 255-escaped extension bytes a literal run of length `n` needs in
the LZ4 format (0 below 15, then `(n - 15) / 255 + 1`). -/
def extLen (n : Nat) : Nat := if n < 15 then 0 else (n - 15) / 255 + 1

/-- The first match position of `m` in `[i, bound)`, or `deflt` if there is
none (the cost pass tracks this as `posLastMatch`, with `deflt` the block
size). -/
def nmFrom (m : List Match) (deflt bound : Nat) : Nat → Nat
  | i =>
    if i < bound then
      if (m.getD i mdefault).isMatch then i else nmFrom m deflt bound (i + 1)
    else deflt
termination_by i => bound - i
decreasing_by simp_wf; omega

/-- A real (length ≥ 4) match for position `pos` exists within the 64 KiB
window: some distance `d` back, inside the buffer, the four bytes coincide. -/
def hasMatch4Within (data : List Nat) (pos begin_ : Nat) : Prop :=
  ∃ d, 1 ≤ d ∧ d ≤ MaxDistance ∧ begin_ + d ≤ pos ∧
    ∀ k < 4, byteAt data (pos - begin_ + k) = byteAt data (pos - begin_ - d + k)

/-- Soundness of an exact-chain table up to position `pos`: every non-sentinel
entry is a `uint16_t` distance that links its position to an earlier position
(at or after `begin_`) whose first four bytes are byte-identical. -/
def prevExactSound (data : List Nat) (previous : Nat → Nat) (begin_ pos : Nat) : Prop :=
  ∀ q < pos + 1, begin_ ≤ q → previous (q % PreviousSize) ≠ NoPrevious →
    previous (q % PreviousSize) ≤ MaxDistance ∧ begin_ + previous (q % PreviousSize) ≤ q ∧
      ∀ k < 4, byteAt data (q - begin_ + k) =
        byteAt data (q - begin_ - previous (q % PreviousSize) + k)

/-- 13 pairwise-distinct input bytes (a block with no matches at all). -/
def data13 : List Nat := [0, 1, 2, 3, 4, 5, 6, 7, 8, 9, 10, 11, 12]

/-- 16 input bytes `abcdabcdabcdabcd`-style: a period-4 pattern. -/
def data16 : List Nat := [1, 2, 3, 4, 1, 2, 3, 4, 1, 2, 3, 4, 1, 2, 3, 4]

/-- 25 input bytes with the 4-byte pattern `1 2 3 4` at positions 0 and 8 and
otherwise pairwise-distinct bytes. -/
def data25 : List Nat :=
  [1, 2, 3, 4, 10, 11, 12, 13, 1, 2, 3, 4, 20, 21, 22, 23, 24, 25, 26, 27, 28, 29, 30, 31, 32]

/-- 6 pairwise-distinct bytes (for the `findLongestMatch` counterexample). -/
def data6 : List Nat := [10, 11, 12, 13, 14, 15]

/-- An exact-chain table with a single (unsound) entry at residue 4. -/
def prevCex : Nat → Nat := fun r => if r = 4 then 1 else 0

/-- A returned `Match` is real: either the untouched literal placeholder
`⟨1, 0⟩`, or a valid `uint16_t` distance within the window whose referenced
bytes are byte-identical to the matched bytes. -/
def MatchSound (data : List Nat) (begin_ pos : Nat) (r : Match) : Prop :=
  r.length = 1 ∧ r.distance = 0 ∨
    1 ≤ r.distance ∧ r.distance ≤ MaxDistance ∧ begin_ + r.distance ≤ pos ∧
      ∀ k < r.length, byteAt data (pos - begin_ + k) =
        byteAt data (pos - begin_ + k - r.distance)

/-- 9 input bytes with the 4-byte pattern `1 2 3 4` at positions 0 and 4. -/
def data9 : List Nat := [1, 2, 3, 4, 1, 2, 3, 4, 9]

/-- A sound exact-chain table for `data9`: position 4 links distance 4 back
to position 0 (both start with `1 2 3 4`). -/
def prev9 : Nat → Nat := fun r => if r = 4 then 4 else 0

/-! # Theorems -/

theorem isMatch_iff (a : Match) : a.isMatch = true ↔ MinMatch ≤ a.length := by
  simp [Match.isMatch]

theorem isMatch_false_iff (a : Match) : a.isMatch = false ↔ a.length < MinMatch := by
  simp [Match.isMatch]

/-! ## Frame lemmas for the cost pass -/

theorem costLoop_length (B : Nat) :
    ∀ (k : Nat) (s : EState), (costLoop B k s).matchv.length = s.matchv.length := by
  intro k
  induction k with
  | zero => intro s; rfl
  | succ k ih =>
    intro s
    show (costLoop B k (estimateStep B k s)).matchv.length = _
    rw [ih]
    simp [estimateStep]

theorem costLoop_matchv_getD (B : Nat) :
    ∀ (k : Nat) (s : EState) (j : Nat), k ≤ j →
      (costLoop B k s).matchv.getD j mdefault = s.matchv.getD j mdefault := by
  intro k
  induction k with
  | zero => intro s j _; rfl
  | succ k ih =>
    intro s j hj
    show (costLoop B k (estimateStep B k s)).matchv.getD j mdefault = _
    rw [ih _ _ (Nat.le_of_succ_le hj)]
    simp [estimateStep, List.getD, List.getElem?_set_ne (show k ≠ j by omega)]

theorem costLoop_cost (B : Nat) :
    ∀ (k : Nat) (s : EState) (j : Nat), k ≤ j → (costLoop B k s).cost j = s.cost j := by
  intro k
  induction k with
  | zero => intro s j _; rfl
  | succ k ih =>
    intro s j hj
    show (costLoop B k (estimateStep B k s)).cost j = _
    rw [ih _ _ (Nat.le_of_succ_le hj)]
    simp [estimateStep, show j ≠ k by omega]

/-! ## The inner length loop: bounds on the chosen best length -/

theorem stepCore_entry (B i : Nat) (a : Match) (c : Nat → Nat) (p : Nat) :
    (stepCore B i a c p).1 =
      ⟨(tryLengths c i a.distance (clampLen B i a) (clampLen B i a + 1) MinMatch
          (litBase c i p, 1)).2,
        if (tryLengths c i a.distance (clampLen B i a) (clampLen B i a + 1) MinMatch
            (litBase c i p, 1)).2 = 1 then NoPrevious
        else a.distance⟩ := rfl

theorem stepCore_costval (B i : Nat) (a : Match) (c : Nat → Nat) (p : Nat) :
    (stepCore B i a c p).2.1 =
      (tryLengths c i a.distance (clampLen B i a) (clampLen B i a + 1) MinMatch
        (litBase c i p, 1)).1 := rfl

theorem stepCore_plm (B i : Nat) (a : Match) (c : Nat → Nat) (p : Nat) :
    (stepCore B i a c p).2.2 =
      if MinMatch ≤ (tryLengths c i a.distance (clampLen B i a) (clampLen B i a + 1) MinMatch
          (litBase c i p, 1)).2 then i
      else p := rfl

theorem tryLengths_best_mem (cost : Nat → Nat) (i dist mlen : Nat) :
    ∀ (fuel L : Nat) (st : Nat × Nat),
      st.2 = 1 ∨ (MinMatch ≤ st.2 ∧ st.2 ≤ mlen) → MinMatch ≤ L →
      ((tryLengths cost i dist mlen fuel L st).2 = 1 ∨
        (MinMatch ≤ (tryLengths cost i dist mlen fuel L st).2 ∧
          (tryLengths cost i dist mlen fuel L st).2 ≤ mlen)) := by
  intro fuel
  induction fuel with
  | zero => intro L st h _; exact h
  | succ fuel ih =>
    intro L st h hL
    obtain ⟨mc, bl⟩ := st
    rw [tryLengths]
    by_cases h1 : mlen < L
    · simpa [h1] using h
    · simp only [if_neg h1]
      by_cases h2 : dist = 1 ∧ MaxSameLetter ≤ mlen
      · simp only [if_pos h2]
        right
        exact ⟨by simp only [MinMatch] at hL ⊢; omega, le_rfl⟩
      · simp only [if_neg h2]
        refine ih _ _ ?_ (by simp only [MinMatch] at hL ⊢; omega)
        split <;> split <;>
          first
          | (right; exact ⟨hL, Nat.le_of_not_lt h1⟩)
          | exact h

/-- Every entry written by the cost pass is a literal (length 1) or a match
whose end stays `BlockEndLiterals` short of the block end. -/
theorem stepCore_entry_bound (B i : Nat) (a : Match) (c : Nat → Nat) (p : Nat) :
    (stepCore B i a c p).1.length = 1 ∨
      (MinMatch ≤ (stepCore B i a c p).1.length ∧
        i + (stepCore B i a c p).1.length + BlockEndLiterals ≤ B) := by
  rw [stepCore_entry]
  dsimp only
  have hb := tryLengths_best_mem c i a.distance (clampLen B i a) (clampLen B i a + 1)
    MinMatch (litBase c i p, 1) (Or.inl rfl) le_rfl
  rcases hb with hb | ⟨hb1, hb2⟩
  · left; exact hb
  · right
    refine ⟨hb1, ?_⟩
    have hm4 : MinMatch = 4 := rfl
    have hb5 : BlockEndLiterals = 5 := rfl
    by_cases hc : a.isMatch = true ∧ B < i + a.length + BlockEndLiterals
    · have hcl : clampLen B i a = B - (i + BlockEndLiterals) := by
        rw [clampLen, if_pos hc]
      omega
    · have hcl : clampLen B i a = a.length := by rw [clampLen, if_neg hc]
      by_cases hm : a.isMatch = true
      · have hnc : ¬ B < i + a.length + BlockEndLiterals := fun h => hc ⟨hm, h⟩
        omega
      · rw [Bool.not_eq_true, isMatch_false_iff] at hm
        omega

/-- Every entry of the final vector at a processed position `i < k` is the
`stepCore` rewrite of the initial entry at `i`, for some suffix cost state. -/
theorem costLoop_entry_ex (B : Nat) :
    ∀ (k : Nat) (s : EState) (i : Nat), i < k → k ≤ s.matchv.length →
      ∃ c p, (costLoop B k s).matchv.getD i mdefault =
        (stepCore B i (s.matchv.getD i mdefault) c p).1 := by
  intro k
  induction k with
  | zero => intro s i h _; omega
  | succ k ih =>
    intro s i hik hlen
    by_cases hik' : i < k
    · obtain ⟨c, p, hcp⟩ := ih (estimateStep B k s) i hik'
        (by simpa [estimateStep] using Nat.le_of_succ_le hlen)
      refine ⟨c, p, ?_⟩
      show (costLoop B k (estimateStep B k s)).matchv.getD i mdefault = _
      rw [hcp]
      congr 2
      simp [estimateStep, List.getD, List.getElem?_set_ne (show k ≠ i by omega)]
    · have hik2 : i = k := by omega
      subst hik2
      refine ⟨s.cost, s.posLastMatch, ?_⟩
      show (costLoop B i (estimateStep B i s)).matchv.getD i mdefault = _
      rw [costLoop_matchv_getD B i _ i le_rfl]
      simp [estimateStep, List.getD, List.getElem?_set_self, show i < s.matchv.length by omega]

/-- No optimized match crosses the block end, for `estimateCosts` on a candidate vector whose last
`BlockEndLiterals` entries are no-matches (which is how the match finder hands
the vector over). -/
theorem estimateCosts_no_cross (m : List Match) (i : Nat)
    (htail : ∀ j < m.length, m.length - BlockEndLiterals ≤ j →
      (m.getD j mdefault).isMatch = false)
    (h4 : MinMatch ≤ ((estimateCosts m).getD i mdefault).length) :
    i + ((estimateCosts m).getD i mdefault).length + BlockEndLiterals ≤ m.length := by
  by_cases hi : i < m.length - BlockEndLiterals
  · obtain ⟨c, p, hcp⟩ := costLoop_entry_ex m.length (m.length - BlockEndLiterals)
      ⟨m, fun _ => 0, m.length⟩ i hi (Nat.sub_le _ _)
    rw [estimateCosts] at h4 ⊢
    rw [hcp] at h4 ⊢
    rcases stepCore_entry_bound m.length i (m.getD i mdefault) c p with h1 | ⟨_, h3⟩
    · rw [h1] at h4; simp [MinMatch] at h4
    · exact h3
  · have huntouched : (estimateCosts m).getD i mdefault = m.getD i mdefault :=
      costLoop_matchv_getD m.length (m.length - BlockEndLiterals)
        ⟨m, fun _ => 0, m.length⟩ i (by omega)
    rw [huntouched] at h4
    by_cases him : i < m.length
    · have := htail i him (by omega)
      rw [isMatch_false_iff] at this
      omega
    · rw [List.getD_eq_default _ _ (by omega)] at h4
      simp [mdefault, MinMatch] at h4

/-! ## Characterization of the inner length loop -/

theorem clampLen_le_length (B i : Nat) (a : Match) : clampLen B i a ≤ a.length := by
  rw [clampLen]
  split
  · next h => omega
  · exact le_rfl

theorem clampLen_cross (B i : Nat) (a : Match) (h : MinMatch ≤ clampLen B i a) :
    i + clampLen B i a + BlockEndLiterals ≤ B := by
  have hm4 : MinMatch = 4 := rfl
  have hb5 : BlockEndLiterals = 5 := rfl
  rw [clampLen] at h ⊢
  split at h
  · next hc =>
      simp only [if_pos hc]
      omega
  · next hc =>
      simp only [if_neg hc]
      by_cases hmm : a.isMatch = true
      · have hnc : ¬ B < i + a.length + BlockEndLiterals := fun hx => hc ⟨hmm, hx⟩
        omega
      · rw [Bool.not_eq_true, isMatch_false_iff] at hmm
        omega

theorem currentCost_eq (cost : Nat → Nat) (i L : Nat) :
    (if 19 ≤ L then cost (i + L) + 1 + 2 + 1 + (L - 19) / 255 else cost (i + L) + 1 + 2) =
      matchCost cost i L := by
  rw [matchCost, mext]
  split <;> omega

/-- Taking the `distance == 1 && length >= MaxSameLetter` shortcut: the loop
immediately commits to the full candidate length. -/
theorem tryLengths_shortcut (cost : Nat → Nat) (i dist mlen fuel L mc bl : Nat)
    (h1 : dist = 1 ∧ MaxSameLetter ≤ mlen) (h2 : ¬ mlen < L) :
    tryLengths cost i dist mlen (fuel + 1) L (mc, bl) =
      (cost (i + mlen) + 1 + 2 + 1 + (mlen - 19) / 255, mlen) := by
  rw [tryLengths]
  simp [h1, h2]

/-- Full characterization of the non-shortcut length loop: the result never
exceeds the incoming minimum; it is either the unchanged incoming state or a
length in `[L, mlen]` whose `matchCost` it equals; it is a lower bound on every
`matchCost` in range; and it is strictly below the `matchCost` of every length
beyond the chosen one (the `<=` tie-break keeps the longest minimizer). -/
theorem tryLengths_char (cost : Nat → Nat) (i dist mlen : Nat)
    (hns : ¬ (dist = 1 ∧ MaxSameLetter ≤ mlen)) :
    ∀ (fuel L mc bl : Nat), mlen < L + fuel →
      (tryLengths cost i dist mlen fuel L (mc, bl)).1 ≤ mc ∧
      (((tryLengths cost i dist mlen fuel L (mc, bl)).1 = mc ∧
          (tryLengths cost i dist mlen fuel L (mc, bl)).2 = bl) ∨
        (L ≤ (tryLengths cost i dist mlen fuel L (mc, bl)).2 ∧
          (tryLengths cost i dist mlen fuel L (mc, bl)).2 ≤ mlen ∧
          (tryLengths cost i dist mlen fuel L (mc, bl)).1 =
            matchCost cost i (tryLengths cost i dist mlen fuel L (mc, bl)).2)) ∧
      (∀ L', L ≤ L' → L' ≤ mlen →
        (tryLengths cost i dist mlen fuel L (mc, bl)).1 ≤ matchCost cost i L') ∧
      (∀ L', L ≤ L' → L' ≤ mlen → (tryLengths cost i dist mlen fuel L (mc, bl)).2 < L' →
        (tryLengths cost i dist mlen fuel L (mc, bl)).1 < matchCost cost i L') := by
  intro fuel
  induction fuel with
  | zero =>
    intro L mc bl hfl
    refine ⟨le_rfl, Or.inl ⟨by trivial, by trivial⟩, ?_, ?_⟩ <;> (intro L' h1 h2; omega)
  | succ fuel ih =>
    intro L mc bl hfl
    rw [tryLengths]
    by_cases h1 : mlen < L
    · simp only [if_pos h1]
      refine ⟨le_rfl, Or.inl ⟨by trivial, by trivial⟩, ?_, ?_⟩ <;> (intro L' hx1 hx2; omega)
    · simp only [if_neg h1, if_neg hns, currentCost_eq]
      by_cases h3 : matchCost cost i L ≤ mc
      · simp only [if_pos h3]
        obtain ⟨ih1, ih2, ih3, ih4⟩ := ih (L + 1) (matchCost cost i L) L (by omega)
        refine ⟨by omega, ?_, ?_, ?_⟩
        · right
          rcases ih2 with ⟨ha, hb⟩ | ⟨ha, hb, hc⟩
          · exact ⟨by omega, by omega, by rw [ha, hb]⟩
          · exact ⟨by omega, hb, hc⟩
        · intro L' hx1 hx2
          rcases Nat.eq_or_lt_of_le hx1 with hx | hx
          · subst hx; omega
          · exact ih3 L' hx hx2
        · intro L' hx1 hx2 hx3
          rcases Nat.eq_or_lt_of_le hx1 with hx | hx
          · subst hx
            rcases ih2 with ⟨_, hb⟩ | ⟨ha, _, _⟩ <;> omega
          · exact ih4 L' hx hx2 hx3
      · simp only [if_neg h3]
        obtain ⟨ih1, ih2, ih3, ih4⟩ := ih (L + 1) mc bl (by omega)
        refine ⟨ih1, ?_, ?_, ?_⟩
        · rcases ih2 with ⟨ha, hb⟩ | ⟨ha, hb, hc⟩
          · exact Or.inl ⟨ha, hb⟩
          · exact Or.inr ⟨by omega, hb, hc⟩
        · intro L' hx1 hx2
          rcases Nat.eq_or_lt_of_le hx1 with hx | hx
          · subst hx; omega
          · exact ih3 L' hx hx2
        · intro L' hx1 hx2 hx3
          rcases Nat.eq_or_lt_of_le hx1 with hx | hx
          · subst hx
            rcases ih2 with ⟨ha, hb⟩ | ⟨ha, _, _⟩ <;> omega
          · exact ih4 L' hx hx2 hx3

/-! ## Idempotence of the cost pass -/

theorem pair_eq {p : Nat × Nat} {a b : Nat} (h1 : p.1 = a) (h2 : p.2 = b) : p = (a, b) := by
  cases p
  cases h1
  cases h2
  rfl

theorem list_set_getD_self {l : List Match} {i : Nat} {a : Match} (h : i < l.length)
    (hget : l.getD i mdefault = a) : l.set i a = l := by
  apply List.ext_getElem
  · simp
  · intro n h1 h2
    by_cases hn : n = i
    · subst hn
      rw [List.getElem_set_self]
      rw [List.getD, List.get?_eq_getElem?, List.getElem?_eq_getElem h2] at hget
      simpa using hget.symm
    · rw [List.getElem_set_ne (fun hh => hn hh.symm)]

theorem stepCore_eq_of (B i : Nat) (a : Match) (c : Nat → Nat) (p mc bl : Nat)
    (h : tryLengths c i a.distance (clampLen B i a) (clampLen B i a + 1) MinMatch
      (litBase c i p, 1) = (mc, bl)) :
    stepCore B i a c p =
      (⟨bl, if bl = 1 then NoPrevious else a.distance⟩, mc,
        if MinMatch ≤ bl then i else p) := by
  have h1 := stepCore_entry B i a c p
  have h2 := stepCore_costval B i a c p
  have h3 := stepCore_plm B i a c p
  rw [h] at h1 h2 h3
  refine Prod.ext ?_ (Prod.ext ?_ ?_)
  · exact h1
  · exact h2
  · exact h3

theorem clampLen_literal (B i d : Nat) : clampLen B i ⟨1, d⟩ = 1 := by
  rw [clampLen, if_neg]
  intro hx
  have := hx.1
  rw [isMatch_iff] at this
  simp [MinMatch] at this

/-- Re-running the loop body of `estimateCosts` on its own output (with the
same suffix cost state) changes nothing: the written entry, the stored cost
and the `posLastMatch` update are reproduced exactly. -/
theorem stepCore_idem (B i : Nat) (a : Match) (c : Nat → Nat) (p : Nat) :
    stepCore B i (stepCore B i a c p).1 c p = stepCore B i a c p := by
  have hm4 : MinMatch = 4 := rfl
  have hML : MaxSameLetter = 19 + 255 * 256 := rfl
  by_cases hsc : a.distance = 1 ∧ MaxSameLetter ≤ clampLen B i a
  · -- the self-reference shortcut fires in both runs
    have hnlt : ¬ clampLen B i a < MinMatch := by omega
    have hstep := stepCore_eq_of B i a c p _ _
      (tryLengths_shortcut c i a.distance (clampLen B i a) (clampLen B i a) MinMatch
        (litBase c i p) 1 hsc hnlt)
    have hne1 : ¬ clampLen B i a = 1 := by omega
    rw [if_neg hne1, if_pos (show MinMatch ≤ clampLen B i a by omega)] at hstep
    have hcross := clampLen_cross B i a (by omega)
    have hcl2 : clampLen B i (⟨clampLen B i a, a.distance⟩ : Match) = clampLen B i a := by
      rw [clampLen, if_neg]
      intro hx
      exact absurd hx.2 (by dsimp only; omega)
    have hstep2 := stepCore_eq_of B i (⟨clampLen B i a, a.distance⟩ : Match) c p
      (c (i + clampLen B i a) + 1 + 2 + 1 + (clampLen B i a - 19) / 255) (clampLen B i a)
      (by
        rw [hcl2]
        exact tryLengths_shortcut c i a.distance (clampLen B i a) (clampLen B i a) MinMatch
          (litBase c i p) 1 hsc hnlt)
    rw [hstep]
    dsimp only
    rw [hstep2]
    rw [if_neg hne1, if_pos (show MinMatch ≤ clampLen B i a by omega)]
  · -- no shortcut: use the loop characterization for both runs
    obtain ⟨h1, h2, h3, h4⟩ := tryLengths_char c i a.distance (clampLen B i a) hsc
      (clampLen B i a + 1) MinMatch (litBase c i p) 1 (by omega)
    rcases h2 with ⟨ha, hb⟩ | ⟨ha, hb, hc⟩
    · -- the first run chose the literal
      have hstep := stepCore_eq_of B i a c p (litBase c i p) 1 (pair_eq ha hb)
      rw [if_pos rfl, if_neg (by omega)] at hstep
      have hstep2 := stepCore_eq_of B i (⟨1, NoPrevious⟩ : Match) c p
        (litBase c i p) 1
        (by
          rw [clampLen_literal]
          rw [show (1 : Nat) + 1 = 0 + 1 + 1 from rfl]
          rw [tryLengths]
          simp [MinMatch])
      rw [if_pos rfl, if_neg (by omega)] at hstep2
      rw [hstep]
      dsimp only
      exact hstep2
    · -- the first run chose a match of length r.2
      set r := tryLengths c i a.distance (clampLen B i a) (clampLen B i a + 1) MinMatch
        (litBase c i p, 1) with hr
      have hstep := stepCore_eq_of B i a c p r.1 r.2 (pair_eq rfl rfl)
      have hne1 : ¬ r.2 = 1 := by omega
      rw [if_neg hne1, if_pos ha] at hstep
      have hcross := clampLen_cross B i a (by omega)
      have hcl2 : clampLen B i (⟨r.2, a.distance⟩ : Match) = r.2 := by
        rw [clampLen, if_neg]
        intro hx
        have := hx.2
        dsimp only at this
        omega
      have hns2 : ¬ ((⟨r.2, a.distance⟩ : Match).distance = 1 ∧
          MaxSameLetter ≤ clampLen B i (⟨r.2, a.distance⟩ : Match)) := by
        rw [hcl2]
        dsimp only
        intro hx
        exact hsc ⟨hx.1, by omega⟩
      obtain ⟨g1, g2, g3, g4⟩ := tryLengths_char c i (⟨r.2, a.distance⟩ : Match).distance
        (clampLen B i (⟨r.2, a.distance⟩ : Match)) hns2
        (clampLen B i (⟨r.2, a.distance⟩ : Match) + 1) MinMatch (litBase c i p) 1 (by omega)
      set r' := tryLengths c i (⟨r.2, a.distance⟩ : Match).distance
        (clampLen B i (⟨r.2, a.distance⟩ : Match))
        (clampLen B i (⟨r.2, a.distance⟩ : Match) + 1) MinMatch (litBase c i p, 1) with hr'
      rw [hcl2] at g2 g3 g4
      have hle1 : r'.1 ≤ r.1 := by
        have := g3 r.2 ha le_rfl
        omega
      have hge1 : r.1 ≤ r'.1 := by
        rcases g2 with ⟨ga, _⟩ | ⟨ga, gb, gc⟩
        · omega
        · have := h3 r'.2 ga (by omega)
          omega
      have heq2 : r'.2 = r.2 := by
        by_contra hne
        rcases g2 with ⟨_, gb⟩ | ⟨ga, gb, gc⟩
        · have := g4 r.2 ha le_rfl (by omega)
          omega
        · have := g4 r.2 ha le_rfl (by omega)
          omega
      have hstep2 := stepCore_eq_of B i (⟨r.2, a.distance⟩ : Match) c p r'.1 r'.2
        (pair_eq rfl rfl)
      rw [hstep]
      dsimp only
      rw [hstep2]
      dsimp only
      rw [heq2, if_neg hne1, if_pos ha]
      have hv : r'.1 = r.1 := by omega
      rw [hv]

/-- Pass-level idempotence of the cost loop (rerunning over the rewritten
vector, starting from the same initial cost state, reproduces everything). -/
theorem costLoop_idem (B : Nat) :
    ∀ (k : Nat) (M : List Match) (c : Nat → Nat) (p : Nat), k ≤ M.length →
      costLoop B k ⟨(costLoop B k ⟨M, c, p⟩).matchv, c, p⟩ = costLoop B k ⟨M, c, p⟩ := by
  intro k
  induction k with
  | zero => intro M c p _; rfl
  | succ k ih =>
    intro M c p hk
    have hkM : k < M.length := hk
    set e := (stepCore B k (M.getD k mdefault) c p).1 with he
    set cv := (stepCore B k (M.getD k mdefault) c p).2.1 with hcv
    set p2 := (stepCore B k (M.getD k mdefault) c p).2.2 with hp2
    have hstep1 : estimateStep B k ⟨M, c, p⟩ =
        ⟨M.set k e, fun j => if j = k then cv else c j, p2⟩ := rfl
    have hM' : (costLoop B (k + 1) ⟨M, c, p⟩).matchv =
        (costLoop B k ⟨M.set k e, fun j => if j = k then cv else c j, p2⟩).matchv := by
      show (costLoop B k (estimateStep B k ⟨M, c, p⟩)).matchv = _
      rw [hstep1]
    have hgetk : (costLoop B (k + 1) ⟨M, c, p⟩).matchv.getD k mdefault = e := by
      rw [hM', costLoop_matchv_getD B k _ k le_rfl]
      simp [List.getD, List.getElem?_set_self, hkM]
    -- unfold one step of the second pass
    show costLoop B k (estimateStep B k ⟨(costLoop B (k + 1) ⟨M, c, p⟩).matchv, c, p⟩) =
      costLoop B k (estimateStep B k ⟨M, c, p⟩)
    have hstep2 : estimateStep B k ⟨(costLoop B (k + 1) ⟨M, c, p⟩).matchv, c, p⟩ =
        ⟨(costLoop B (k + 1) ⟨M, c, p⟩).matchv.set k e,
          fun j => if j = k then cv else c j, p2⟩ := by
      show (⟨(costLoop B (k + 1) ⟨M, c, p⟩).matchv.set k
          (stepCore B k ((costLoop B (k + 1) ⟨M, c, p⟩).matchv.getD k mdefault) c p).1,
          fun j => if j = k then
            (stepCore B k ((costLoop B (k + 1) ⟨M, c, p⟩).matchv.getD k mdefault) c p).2.1
          else c j,
          (stepCore B k ((costLoop B (k + 1) ⟨M, c, p⟩).matchv.getD k mdefault) c p).2.2⟩ :
          EState) = _
      rw [hgetk, he]
      rw [stepCore_idem B k (M.getD k mdefault) c p]
    rw [hstep2, hstep1]
    have hsetid : (costLoop B (k + 1) ⟨M, c, p⟩).matchv.set k e =
        (costLoop B (k + 1) ⟨M, c, p⟩).matchv :=
      list_set_getD_self (by rw [hM', costLoop_length]; simpa using hkM) hgetk
    rw [hsetid, hM']
    exact ih (M.set k e) (fun j => if j = k then cv else c j) p2 (by simp; omega)

/-! ## Per-index post-conditions of the cost pass -/

theorem nmFrom_stop (m : List Match) (d bound i : Nat) (h : bound ≤ i) :
    nmFrom m d bound i = d := by
  rw [nmFrom, if_neg (by omega)]

theorem nmFrom_peel (m : List Match) (d k : Nat) :
    ∀ n i, i ≤ k → k - i = n →
      nmFrom m d (k + 1) i =
        nmFrom m (if (m.getD k mdefault).isMatch then k else d) k i := by
  intro n
  induction n with
  | zero =>
    intro i hik hn
    have : i = k := by omega
    subst this
    rw [nmFrom, if_pos (by omega), nmFrom_stop m d (i + 1) (i + 1) le_rfl,
      nmFrom_stop _ _ i i le_rfl]
  | succ n ihn =>
    intro i hik hn
    have hik' : i < k := by omega
    rw [nmFrom, if_pos (by omega)]
    rw [show nmFrom m (if (m.getD k mdefault).isMatch then k else d) k i =
      if i < k then
        (if (m.getD i mdefault).isMatch then i
          else nmFrom m (if (m.getD k mdefault).isMatch then k else d) k (i + 1))
      else (if (m.getD k mdefault).isMatch then k else d) from by rw [nmFrom]]
    rw [if_pos hik']
    by_cases hmi : (m.getD i mdefault).isMatch
    · rw [if_pos hmi, if_pos hmi]
    · rw [if_neg hmi, if_neg hmi]
      exact ihn (i + 1) (by omega) (by omega)

theorem stepCore_plm_match (B i : Nat) (a : Match) (c : Nat → Nat) (p : Nat) :
    (if (stepCore B i a c p).1.isMatch then i else p) = (stepCore B i a c p).2.2 := by
  rw [stepCore_plm]
  by_cases h : MinMatch ≤ (tryLengths c i a.distance (clampLen B i a) (clampLen B i a + 1)
      MinMatch (litBase c i p, 1)).2
  · rw [if_pos h, if_pos (by rw [stepCore_entry, isMatch_iff]; exact h)]
  · rw [if_neg h, if_neg (by rw [stepCore_entry, isMatch_iff]; exact h)]

/-- The state the cost pass feeds into the body at position `i`: the suffix
costs agree with the final cost array and `posLastMatch` is the first match
position of the final vector after `i` (or the initial value). -/
theorem costLoop_post (B : Nat) :
    ∀ (k : Nat) (s : EState) (i : Nat), i < k → k ≤ s.matchv.length →
      ∃ c p,
        (∀ j, i < j → c j = (costLoop B k s).cost j) ∧
        p = nmFrom (costLoop B k s).matchv s.posLastMatch k (i + 1) ∧
        (costLoop B k s).cost i = (stepCore B i (s.matchv.getD i mdefault) c p).2.1 ∧
        (costLoop B k s).matchv.getD i mdefault =
          (stepCore B i (s.matchv.getD i mdefault) c p).1 := by
  intro k
  induction k with
  | zero => intro s i h _; omega
  | succ k ih =>
    intro s i hik hlen
    have hunfold : costLoop B (k + 1) s = costLoop B k (estimateStep B k s) := rfl
    have hglen : (costLoop B (k + 1) s).matchv.length = s.matchv.length := costLoop_length B _ _
    have hgetk : (costLoop B (k + 1) s).matchv.getD k mdefault =
        (stepCore B k (s.matchv.getD k mdefault) s.cost s.posLastMatch).1 := by
      rw [hunfold, costLoop_matchv_getD B k _ k le_rfl]
      show (s.matchv.set k _).getD k mdefault = _
      simp [List.getD, List.getElem?_set_self, show k < s.matchv.length by omega]
    have hplmpeel : ∀ j, j ≤ k →
        nmFrom (costLoop B (k + 1) s).matchv s.posLastMatch (k + 1) j =
          nmFrom (costLoop B (k + 1) s).matchv
            (estimateStep B k s).posLastMatch k j := by
      intro j hj
      rw [nmFrom_peel _ _ k (k - j) j hj rfl]
      congr 1
      rw [hgetk]
      exact stepCore_plm_match B k (s.matchv.getD k mdefault) s.cost s.posLastMatch
    by_cases hik' : i < k
    · obtain ⟨c, p, hc, hplm, hcost, hmv⟩ := ih (estimateStep B k s) i hik'
        (by simpa [estimateStep] using Nat.le_of_succ_le hlen)
      have hgetD : (estimateStep B k s).matchv.getD i mdefault = s.matchv.getD i mdefault := by
        simp [estimateStep, List.getD, List.getElem?_set_ne (show k ≠ i by omega)]
      refine ⟨c, p, ?_, ?_, ?_, ?_⟩
      · intro j hj
        rw [hc j hj, hunfold]
      · rw [hplm, ← hunfold]
        exact (hplmpeel (i + 1) (by omega)).symm
      · rw [hunfold, hcost, hgetD]
      · rw [hunfold, hmv, hgetD]
    · have hieq : i = k := by omega
      subst hieq
      refine ⟨s.cost, s.posLastMatch, ?_, ?_, ?_, ?_⟩
      · intro j hj
        rw [hunfold, costLoop_cost B i _ j (by omega)]
        show s.cost j = if j = i then _ else s.cost j
        rw [if_neg (by omega)]
      · rw [nmFrom_stop _ _ _ _ le_rfl]
      · rw [hunfold, costLoop_cost B i _ i le_rfl]
        show (if i = i then _ else _) = _
        rw [if_pos rfl]
      · rw [hunfold, costLoop_matchv_getD B i _ i le_rfl]
        show (s.matchv.set i _).getD i mdefault = _
        simp [List.getD, List.getElem?_set_self, show i < s.matchv.length by omega]

/-- C7: `estimateCosts` is idempotent — the vector produced by the first pass
is a fixed point of a second pass. -/
theorem c7_estimateCosts_idempotent (m : List Match) :
    estimateCosts (estimateCosts m) = estimateCosts m := by
  have hlen : (estimateCosts m).length = m.length := by
    unfold estimateCosts
    rw [costLoop_length]
  show (costLoop (estimateCosts m).length ((estimateCosts m).length - BlockEndLiterals)
      ⟨estimateCosts m, fun _ => 0, (estimateCosts m).length⟩).matchv = estimateCosts m
  rw [hlen]
  show (costLoop m.length (m.length - BlockEndLiterals)
      ⟨(costLoop m.length (m.length - BlockEndLiterals)
        ⟨m, fun _ => 0, m.length⟩).matchv, fun _ => 0, m.length⟩).matchv = _
  rw [costLoop_idem m.length (m.length - BlockEndLiterals) m (fun _ => 0) m.length
    (Nat.sub_le _ _)]
  rfl

/-! ## C6: near-monotonicity of the cost array -/

/-- When the candidate at `i` is short of the `MaxSameLetter` shortcut, the
value written into `cost[i]` never exceeds the literal cost `litBase`. -/
theorem stepCore_cost_le (B i : Nat) (a : Match) (c : Nat → Nat) (p : Nat)
    (h : a.length < MaxSameLetter) :
    (stepCore B i a c p).2.1 ≤ litBase c i p := by
  have hns : ¬ (a.distance = 1 ∧ MaxSameLetter ≤ clampLen B i a) := by
    have := clampLen_le_length B i a
    intro hx
    omega
  rw [stepCore_costval]
  exact (tryLengths_char c i a.distance (clampLen B i a) hns (clampLen B i a + 1) MinMatch
    (litBase c i p) 1 (by omega)).1

/-- C6 (amended): the estimated costs are not monotone (`cost[i] >= cost[i+1]`
fails in general, see the counterexample), but they never jump by more than
the literal overhead: whenever no candidate reaches the `MaxSameLetter`
self-reference shortcut, `cost[i] <= cost[i+1] + 2`. -/
theorem c6_cost_monotone_within_two (m : List Match) (i : Nat)
    (hns : ∀ j < m.length, (m.getD j mdefault).length < MaxSameLetter)
    (hi : i + 1 < m.length) :
    estimateCostsCost m i ≤ estimateCostsCost m (i + 1) + 2 := by
  by_cases hik : i < m.length - BlockEndLiterals
  · obtain ⟨c, p, hc, -, hcost, -⟩ := costLoop_post m.length (m.length - BlockEndLiterals)
      ⟨m, fun _ => 0, m.length⟩ i hik (Nat.sub_le _ _)
    have hcost' : estimateCostsCost m i = (stepCore m.length i (m.getD i mdefault) c p).2.1 :=
      hcost
    have hcore := stepCore_cost_le m.length i (m.getD i mdefault) c p (hns i (by omega))
    have h2 : litBase c i p ≤ c (i + 1) + 2 := by
      rw [litBase]
      split <;> omega
    have h3 : c (i + 1) = estimateCostsCost m (i + 1) := hc (i + 1) (by omega)
    rw [hcost']
    omega
  · have h0 : estimateCostsCost m i = 0 :=
      costLoop_cost m.length (m.length - BlockEndLiterals) ⟨m, fun _ => 0, m.length⟩ i (by omega)
    rw [h0]
    exact Nat.zero_le _

/-- Witness for the amended C6 statement at the first block of `data25`,
compression level 65535, position `i = 0`. -/
theorem c6_witness :
    (∀ j < (firstBlockMatches data25 65535).length,
      ((firstBlockMatches data25 65535).getD j mdefault).length < MaxSameLetter) ∧
    0 + 1 < (firstBlockMatches data25 65535).length ∧
    estimateCostsCost (firstBlockMatches data25 65535) 0 ≤
      estimateCostsCost (firstBlockMatches data25 65535) (0 + 1) + 2 :=
  ⟨by decide, by decide,
    c6_cost_monotone_within_two (firstBlockMatches data25 65535) 0 (by decide) (by decide)⟩

/-- C6 is false on the code: in the candidate vector of `data25` at level
65535, position 8 starts a 4-byte match (`1 2 3 4` at distance 8) followed by
literals, so `cost[8] = 11 < cost[9] = 12` — the claimed monotonicity
`cost[i] >= cost[i+1]` fails even though the block is longer than
`BlockEndNoMatch` and the level exceeds `ShortChainsGreedy`. -/
theorem c6_counterexample :
    BlockEndNoMatch < (firstBlockMatches data25 65535).length ∧
    ShortChainsGreedy < 65535 ∧
    estimateCostsCost (firstBlockMatches data25 65535) 8 = 11 ∧
    estimateCostsCost (firstBlockMatches data25 65535) 9 = 12 ∧
    ¬ (estimateCostsCost (firstBlockMatches data25 65535) 9 ≤
        estimateCostsCost (firstBlockMatches data25 65535) 8) := by decide

/-! ## C4: optimized matches never cross the block end -/

/-- C4: if the candidate vector carries no match in the last
`BlockEndLiterals` positions (as the match finder guarantees), then every
match the cost optimizer keeps satisfies
`i + length + BlockEndLiterals <= blockEnd`. -/
theorem c4_matches_respect_block_end (m : List Match) (i : Nat)
    (htail : ∀ j < m.length, m.length - BlockEndLiterals ≤ j →
      (m.getD j mdefault).isMatch = false)
    (h4 : MinMatch ≤ ((estimateCosts m).getD i mdefault).length) :
    i + ((estimateCosts m).getD i mdefault).length + BlockEndLiterals ≤ m.length :=
  estimateCosts_no_cross m i htail h4

/-- Witness for C4 at the first block of `data16`, level 65535, position 4
(the optimizer keeps a 7-byte match there and `4 + 7 + 5 = 16` is exactly the
block end). -/
theorem c4_witness :
    (∀ j < (firstBlockMatches data16 65535).length,
      (firstBlockMatches data16 65535).length - BlockEndLiterals ≤ j →
      ((firstBlockMatches data16 65535).getD j mdefault).isMatch = false) ∧
    MinMatch ≤ ((estimateCosts (firstBlockMatches data16 65535)).getD 4 mdefault).length ∧
    4 + ((estimateCosts (firstBlockMatches data16 65535)).getD 4 mdefault).length +
      BlockEndLiterals ≤ (firstBlockMatches data16 65535).length :=
  ⟨by decide, by decide,
    c4_matches_respect_block_end (firstBlockMatches data16 65535) 4 (by decide) (by decide)⟩

/-! ## C2: the cost array is not the minimal encoding size -/

/-- C2 is false on the code: for the 13-byte all-distinct block `data13` the
final `cost[12]` is 0, yet no 0-byte LZ4 block encodes the 1-byte suffix
`[12]` (the empty block decodes to the empty output), so `cost[i]` is not the
minimal encoded size of bytes `i .. blockEnd - 1` (it omits the final token
and the trailing literals). -/
theorem c2_counterexample :
    estimateCostsCost (firstBlockMatches data13 65535) 12 = 0 ∧
    ¬ isMinEncSize (estimateCostsCost (firstBlockMatches data13 65535) 12)
      (data13.drop 12) := by
  have h0 : estimateCostsCost (firstBlockMatches data13 65535) 12 = 0 := by decide
  refine ⟨h0, ?_⟩
  rintro ⟨⟨bs, hlen, hdec⟩, -⟩
  rw [h0, List.length_eq_zero] at hlen
  subst hlen
  exact absurd hdec (by decide)

/-! ## C5: the match finder leaves the last 11 positions alone -/

/-- One step of the match finder never writes a `matches[]` slot whose index
reaches `nextBlock - lastBlock - BlockEndNoMatch + 1`: every write happens at
`p - lastBlock` under the guard `p + BlockEndNoMatch <= nextBlock`. -/
theorem matchFinderStep_matchv_high (data : List Nat) (dataZero lastBlock nextBlock mcl : Nat)
    (unc : Bool) (s : MFState) (p i : Nat)
    (hB : nextBlock < lastBlock + i + BlockEndNoMatch) :
    (matchFinderStep data dataZero lastBlock nextBlock mcl unc s p).matchv.getD i mdefault =
      s.matchv.getD i mdefault := by
  rw [matchFinderStep]
  split
  · rfl
  next h1 =>
    have hp12 : p + BlockEndNoMatch ≤ nextBlock := by
      rcases not_or.mp h1 with ⟨hx, -⟩
      omega
    have hne : lastBlock ≤ p → ∀ (x : Match),
        (s.matchv.set (p - lastBlock) x).getD i mdefault = s.matchv.getD i mdefault := by
      intro hpl x
      simp [List.getD, List.getElem?_set_ne (show p - lastBlock ≠ i by omega)]
    split
    next h2 => exact hne (Nat.le_of_lt h2.1) _
    next h2 =>
      dsimp only
      split
      · rfl
      · split
        · rfl
        · split
          · rfl
          next h3 =>
            split
            · rfl
            · exact hne (Nat.le_of_not_lt h3) _

/-- The whole pass never writes a `matches[]` slot in the last
`BlockEndNoMatch - 1` positions of the block. -/
theorem matchFinderPass_matchv_high (data : List Nat) (dataZero lastBlock nextBlock mcl : Nat)
    (unc : Bool) (startPos : Nat) (s0 : MFState) (i : Nat)
    (hB : nextBlock < lastBlock + i + BlockEndNoMatch) :
    (matchFinderPass data dataZero lastBlock nextBlock mcl unc startPos s0).matchv.getD i
        mdefault = s0.matchv.getD i mdefault := by
  rw [matchFinderPass]
  generalize List.range (nextBlock - startPos) = l
  induction l generalizing s0 with
  | nil => rfl
  | cons a t ih =>
    rw [List.foldl_cons, ih]
    exact matchFinderStep_matchv_high data dataZero lastBlock nextBlock mcl unc s0
      (startPos + a) i hB

/-- C5 is false on the code: for the periodic 16-byte block `data16` at level
65535 the match finder stores an 8-byte match at position `4 = 16 -
BlockEndNoMatch` — the guarded region starts at `blockSize - BlockEndNoMatch`
inclusively, not after it, so "the last `BlockEndNoMatch` positions hold no
match" is off by one. -/
theorem c5_counterexample :
    (firstBlockMatches data16 65535).length - BlockEndNoMatch = 4 ∧
    (firstBlockMatches data16 65535).getD 4 mdefault = ⟨8, 4⟩ ∧
    ((firstBlockMatches data16 65535).getD 4 mdefault).isMatch = true := by decide

/-- C5 (amended): starting from the per-block candidate vector the driver
allocates (`blockSize` copies of the empty match), the match-finding pass
leaves every position `i` with `blockSize <= i + BlockEndNoMatch - 1` a
non-match — only the last `BlockEndNoMatch - 1 = 11` positions are guaranteed
literal, not the last 12. -/
theorem c5_no_match_in_last_eleven (data : List Nat)
    (dataZero lastBlock nextBlock mcl startPos i : Nat) (unc : Bool)
    (lh ph pe : Nat → Nat)
    (hB : nextBlock < lastBlock + i + BlockEndNoMatch) :
    ((matchFinderPass data dataZero lastBlock nextBlock mcl unc startPos
        ⟨lh, ph, pe, List.replicate (nextBlock - lastBlock) mdefault, 0,
          false⟩).matchv.getD i mdefault).isMatch = false := by
  rw [matchFinderPass_matchv_high data dataZero lastBlock nextBlock mcl unc startPos _ i hB]
  show ((List.replicate (nextBlock - lastBlock) mdefault).getD i mdefault).isMatch = false
  rw [List.getD, List.get?_eq_getElem?]
  rcases Nat.lt_or_ge i (nextBlock - lastBlock) with h | h
  · rw [List.getElem?_replicate, if_pos h]
    rfl
  · rw [List.getElem?_eq_none (by simpa using h)]
    rfl

/-- Witness for the amended C5 statement: the first block of `data16` at
level 65535 (so `lastBlock = 0`, `nextBlock = 16`) at position `i = 5`. -/
theorem c5_witness :
    16 < 0 + 5 + BlockEndNoMatch ∧
    ((matchFinderPass data16 0 0 16 65535 false 0
        ⟨fun _ => NoLastHash, fun _ => NoPrevious, fun _ => NoPrevious,
          List.replicate (16 - 0) mdefault, 0, false⟩).matchv.getD 5 mdefault).isMatch =
      false :=
  ⟨by decide,
    c5_no_match_in_last_eleven data16 0 0 16 65535 0 5 false
      (fun _ => NoLastHash) (fun _ => NoPrevious) (fun _ => NoPrevious) (by decide)⟩

/-! ## C3: a literal results when no real match exists -/

/-- In the 6 pairwise-distinct bytes of `data6` no real 4-byte match starts
at position 4. -/
theorem no_match4_data6 : ¬ hasMatch4Within data6 4 0 := by
  rintro ⟨d, hd1, hd2, hd3, hk⟩
  have hd4 : d ≤ 4 := by omega
  have h0 := hk 0 (by omega)
  interval_cases d <;> revert h0 <;> decide

/-- C3 is false on the code as stated (for every exact-chain state): with the
chain entry `1` at residue 4 — a hash-collision-style stale entry — the
distance-1 candidate at position 4 of the all-distinct buffer `data6` matches
for 2 bytes past the byte-compare (block-end clamped) and `findLongestMatch`
returns a `Match` of length 2, not 1, even though no length-≥-4 match exists
within 65535 bytes. -/
theorem c3_counterexample :
    findLongestMatch data6 4 0 6 prevCex 9 = ⟨2, 1⟩ ∧
    ¬ hasMatch4Within data6 4 0 :=
  ⟨by decide, no_match4_data6⟩

/-- C3 (amended): under soundness of the exact-chain table (every non-sentinel
entry links to an earlier position whose first four bytes coincide — the
invariant the match-finder maintains for `previousExact`), if no length-≥-4
match within 65535 bytes starts at `pos`, then `findLongestMatch` returns a
literal `Match` of length exactly 1. -/
theorem c3_no_match_means_literal (data : List Nat) (pos begin_ end_ : Nat)
    (previous : Nat → Nat) (mcl : Nat)
    (hsound : prevExactSound data previous begin_ pos)
    (hbegin : begin_ ≤ pos)
    (hnm : ¬ hasMatch4Within data pos begin_) :
    (findLongestMatch data pos begin_ end_ previous mcl).length = 1 := by
  by_cases h0 : previous (pos % PreviousSize) = NoPrevious
  · rw [findLongestMatch, h0, flmGo]
    rfl
  · obtain ⟨hb, hp, hk⟩ := hsound pos (Nat.lt_succ_self pos) hbegin h0
    have h1 : 1 ≤ previous (pos % PreviousSize) := by
      rw [NoPrevious] at h0
      omega
    exact absurd ⟨previous (pos % PreviousSize), h1, hb, hp, hk⟩ hnm

/-- Witness for the amended C3 statement: the all-sentinel chain table on
`data6` at position 4. -/
theorem c3_witness :
    prevExactSound data6 (fun _ => NoPrevious) 0 4 ∧
    ¬ hasMatch4Within data6 4 0 ∧
    (findLongestMatch data6 4 0 6 (fun _ => NoPrevious) 9).length = 1 :=
  ⟨fun _ _ _ hq => absurd rfl hq, no_match4_data6,
    c3_no_match_means_literal data6 4 0 6 (fun _ => NoPrevious) 9
      (fun _ _ _ hq => absurd rfl hq) (by decide) no_match4_data6⟩

/-! ## C9: a found match references byte-identical data -/

theorem byteAt_lt (data : List Nat) (hb : ∀ b ∈ data, b < 256) (i : Nat) :
    byteAt data i < 256 := by
  rw [byteAt]
  rcases Nat.lt_or_ge i data.length with h | h
  · rw [List.getD_eq_getElem data 0 h]
    exact hb _ (List.getElem_mem h)
  · rw [List.getD_eq_default data 0 (by omega)]
    omega

/-- Equality of two little-endian 32-bit loads over genuine bytes gives
equality of each of the four bytes. -/
theorem match4_bytes (data : List Nat) (hb : ∀ b ∈ data, b < 256) (a b : Nat)
    (h : match4 data a b = true) :
    ∀ k < 4, byteAt data (a + k) = byteAt data (b + k) := by
  rw [match4, beq_iff_eq, load32, load32] at h
  have h0 := byteAt_lt data hb a
  have h1 := byteAt_lt data hb (a + 1)
  have h2 := byteAt_lt data hb (a + 2)
  have h3 := byteAt_lt data hb (a + 3)
  have g0 := byteAt_lt data hb b
  have g1 := byteAt_lt data hb (b + 1)
  have g2 := byteAt_lt data hb (b + 2)
  have g3 := byteAt_lt data hb (b + 3)
  intro k hk
  rcases (by omega : k = 0 ∨ k = 1 ∨ k = 2 ∨ k = 3) with rfl | rfl | rfl | rfl
  · rw [Nat.add_zero, Nat.add_zero]
    omega
  · omega
  · omega
  · omega

/-- The backward scan (phase 1): success means every byte at an offset in
`[4, c + 3]` coincides with the byte `td` earlier. -/
theorem flmBack_sound (data : List Nat) (cb td : Nat)
    (hb : ∀ b ∈ data, b < 256) (htd : td ≤ cb) :
    ∀ (fuel c : Nat), flmBack data cb td fuel c = true →
      ∀ j, 4 ≤ j → j ≤ c + 3 → byteAt data (cb + j) = byteAt data (cb + j - td) := by
  intro fuel
  induction fuel with
  | zero =>
    intro c h
    rw [flmBack] at h
    exact absurd h (by simp)
  | succ fuel ih =>
    intro c h j hj4 hj3
    rw [flmBack] at h
    by_cases hc : c = 0
    · omega
    · rw [if_neg hc] at h
      by_cases hm : match4 data (cb + c) (cb + c - td) = true
      · rw [if_neg (not_not.mpr hm)] at h
        rcases Nat.lt_or_ge j c with hjc | hjc
        · exact ih (c - 4) h j hj4 (by omega)
        · have hby := match4_bytes data hb (cb + c) (cb + c - td) hm (j - c) (by omega)
          have e1 : cb + c + (j - c) = cb + j := by omega
          have e2 : cb + c - td + (j - c) = cb + j - td := by omega
          rw [e1, e2] at hby
          exact hby
      · rw [if_pos hm] at h
        exact absurd h (by simp)

/-- The fast forward scan only moves the offset forward. -/
theorem flmFast_ge (data : List Nat) (cb td stopOff : Nat) :
    ∀ (fuel c : Nat), c ≤ flmFast data cb td stopOff fuel c := by
  intro fuel
  induction fuel with
  | zero => intro c; rw [flmFast]
  | succ fuel ih =>
    intro c
    rw [flmFast]
    split
    · exact le_trans (by omega) (ih (c + 4))
    · exact le_rfl

/-- The fast forward scan (phase 2a): every byte at an offset in `[c, r)` for
result `r` coincides with the byte `td` earlier. -/
theorem flmFast_sound (data : List Nat) (cb td stopOff : Nat)
    (hb : ∀ b ∈ data, b < 256) (htd : td ≤ cb) :
    ∀ (fuel c j : Nat), c ≤ j → j < flmFast data cb td stopOff fuel c →
      byteAt data (cb + j) = byteAt data (cb + j - td) := by
  intro fuel
  induction fuel with
  | zero =>
    intro c j h1 h2
    rw [flmFast] at h2
    omega
  | succ fuel ih =>
    intro c j h1 h2
    rw [flmFast] at h2
    split at h2
    next hcond =>
      rcases Nat.lt_or_ge j (c + 4) with hj | hj
      · have hby := match4_bytes data hb (cb + c) (cb + c - td) hcond.2 (j - c) (by omega)
        have e1 : cb + c + (j - c) = cb + j := by omega
        have e2 : cb + c - td + (j - c) = cb + j - td := by omega
        rw [e1, e2] at hby
        exact hby
      · exact ih (c + 4) j hj h2
    next => omega

/-- The slow forward scan only moves the offset forward. -/
theorem flmSlow_ge (data : List Nat) (cb td stopOff : Nat) :
    ∀ (fuel c : Nat), c ≤ flmSlow data cb td stopOff fuel c := by
  intro fuel
  induction fuel with
  | zero => intro c; rw [flmSlow]
  | succ fuel ih =>
    intro c
    rw [flmSlow]
    split
    · exact le_trans (by omega) (ih (c + 1))
    · exact le_rfl

/-- The slow forward scan (phase 2b): every byte at an offset in `[c, r)` for
result `r` coincides with the byte `td` earlier. -/
theorem flmSlow_sound (data : List Nat) (cb td stopOff : Nat) :
    ∀ (fuel c j : Nat), c ≤ j → j < flmSlow data cb td stopOff fuel c →
      byteAt data (cb + j) = byteAt data (cb + j - td) := by
  intro fuel
  induction fuel with
  | zero =>
    intro c j h1 h2
    rw [flmSlow] at h2
    omega
  | succ fuel ih =>
    intro c j h1 h2
    rw [flmSlow] at h2
    split at h2
    next hcond =>
      rcases Nat.lt_or_ge j (c + 1) with hj | hj
      · have hj' : j = c := by omega
        rw [hj']
        exact hcond.2
      · exact ih (c + 1) j hj h2
    next => omega

/-- Unfolding of one productive `flmGo` step (chain entry present, within the
64 KiB window, fuel left). -/
theorem flmGo_succ (data : List Nat) (pos begin_ end_ : Nat) (previous : Nat → Nat)
    (fuel distance td₀ : Nat) (result : Match)
    (h1 : ¬ distance = NoPrevious) (h2 : ¬ MaxDistance < td₀ + distance) :
    flmGo data pos begin_ end_ previous (fuel + 1) distance td₀ result =
      (if end_ < pos + result.length + 1 then result
      else if flmBack data (pos - begin_) (td₀ + distance) (result.length - 3 + 1)
          (result.length - 3) = false then
        flmGo data pos begin_ end_ previous fuel
          (previous ((pos - (td₀ + distance)) % PreviousSize)) (td₀ + distance) result
      else
        flmGo data pos begin_ end_ previous fuel
          (previous ((pos - (td₀ + distance)) % PreviousSize)) (td₀ + distance)
          ⟨flmSlow data (pos - begin_) (td₀ + distance) (end_ - pos) (end_ - pos + 1)
            (flmFast data (pos - begin_) (td₀ + distance) (end_ - pos) (end_ - pos + 1)
              (result.length + 1)), td₀ + distance⟩) := by
  rw [flmGo, if_neg h1]
  dsimp only
  rw [if_neg h2]

/-- Soundness of the chain walk: under the exact-chain invariant, if the
accumulated distance is consistent and the incoming result is real, the
outgoing result is real. -/
theorem flmGo_sound (data : List Nat) (pos begin_ end_ : Nat) (previous : Nat → Nat)
    (hb : ∀ b ∈ data, b < 256)
    (hsound : prevExactSound data previous begin_ pos) :
    ∀ (fuel distance td₀ : Nat) (result : Match),
      distance = previous ((pos - td₀) % PreviousSize) →
      begin_ + td₀ ≤ pos →
      (∀ k < 4, byteAt data (pos - begin_ + k) = byteAt data (pos - begin_ + k - td₀)) →
      MatchSound data begin_ pos result →
      MatchSound data begin_ pos (flmGo data pos begin_ end_ previous fuel distance td₀
        result) := by
  intro fuel
  induction fuel with
  | zero =>
    intro distance td₀ result hlink hwin h4 hres
    rw [flmGo]
    split
    · exact hres
    · dsimp only
      split
      · exact hres
      · exact hres
  | succ fuel ih =>
    intro distance td₀ result hlink hwin h4 hres
    have hnp : NoPrevious = 0 := rfl
    by_cases hd0 : distance = NoPrevious
    · rw [flmGo, if_pos hd0]
      exact hres
    · by_cases hmax : MaxDistance < td₀ + distance
      · rw [flmGo, if_neg hd0]
        dsimp only
        rw [if_pos hmax]
        exact hres
      · obtain ⟨hdle, hdwin, hdfour⟩ := hsound (pos - td₀) (by omega) (by omega)
          (by rw [← hlink]; exact hd0)
        rw [← hlink] at hdle hdwin hdfour
        have hd1 : 1 ≤ distance := by
          rw [hnp] at hd0
          omega
        have hwin' : begin_ + (td₀ + distance) ≤ pos := by omega
        have hfour' : ∀ k < 4, byteAt data (pos - begin_ + k) =
            byteAt data (pos - begin_ + k - (td₀ + distance)) := by
          intro k hk
          have e1 : pos - td₀ - begin_ + k = pos - begin_ + k - td₀ := by omega
          have e2 : pos - td₀ - begin_ - distance + k =
              pos - begin_ + k - (td₀ + distance) := by omega
          have hcomp := hdfour k hk
          rw [e1, e2] at hcomp
          rw [h4 k hk, hcomp]
        rw [flmGo_succ data pos begin_ end_ previous fuel distance td₀ result hd0 hmax]
        split
        · exact hres
        · split
          · exact ih _ (td₀ + distance) result rfl hwin' hfour' hres
          next hback =>
            have hbt : flmBack data (pos - begin_) (td₀ + distance)
                (result.length - 3 + 1) (result.length - 3) = true := by
              cases hfb : flmBack data (pos - begin_) (td₀ + distance)
                  (result.length - 3 + 1) (result.length - 3)
              · exact absurd hfb hback
              · rfl
            refine ih _ (td₀ + distance) _ rfl hwin' hfour' ?_
            rw [MatchSound]
            right
            have hcb : td₀ + distance ≤ pos - begin_ := by omega
            refine ⟨show 1 ≤ td₀ + distance by omega,
              show td₀ + distance ≤ MaxDistance by omega, hwin', ?_⟩
            intro k hk
            show byteAt data (pos - begin_ + k) =
              byteAt data (pos - begin_ + k - (td₀ + distance))
            have hkcf : k < flmSlow data (pos - begin_) (td₀ + distance) (end_ - pos)
                (end_ - pos + 1) (flmFast data (pos - begin_) (td₀ + distance) (end_ - pos)
                  (end_ - pos + 1) (result.length + 1)) := hk
            rcases Nat.lt_or_ge k 4 with hk4 | hk4
            · exact hfour' k hk4
            · rcases Nat.lt_or_ge result.length k with hkL | hkL
              · have hfge := flmFast_ge data (pos - begin_) (td₀ + distance) (end_ - pos)
                  (end_ - pos + 1) (result.length + 1)
                rcases Nat.lt_or_ge k (flmFast data (pos - begin_) (td₀ + distance)
                    (end_ - pos) (end_ - pos + 1) (result.length + 1)) with hkf | hkf
                · exact flmFast_sound data (pos - begin_) (td₀ + distance) (end_ - pos) hb
                    hcb (end_ - pos + 1) (result.length + 1) k (by omega) hkf
                · exact flmSlow_sound data (pos - begin_) (td₀ + distance) (end_ - pos)
                    (end_ - pos + 1) _ k hkf hkcf
              · exact flmBack_sound data (pos - begin_) (td₀ + distance) hb hcb
                  (result.length - 3 + 1) (result.length - 3) hbt k hk4 (by omega)

/-- C9: whenever `findLongestMatch` returns a `Match` of length at least 4
(under the exact-chain soundness invariant the match finder maintains, over
genuine byte data), the match is valid: `1 <= distance <= 65535`, the
referenced position lies inside the window, and the referenced bytes are
byte-identical to the matched bytes. -/
theorem c9_found_match_is_real (data : List Nat) (pos begin_ end_ mcl : Nat)
    (previous : Nat → Nat)
    (hb : ∀ b ∈ data, b < 256)
    (hbegin : begin_ ≤ pos)
    (hsound : prevExactSound data previous begin_ pos)
    (h4 : MinMatch ≤ (findLongestMatch data pos begin_ end_ previous mcl).length) :
    1 ≤ (findLongestMatch data pos begin_ end_ previous mcl).distance ∧
    (findLongestMatch data pos begin_ end_ previous mcl).distance ≤ MaxDistance ∧
    begin_ + (findLongestMatch data pos begin_ end_ previous mcl).distance ≤ pos ∧
    ∀ k < (findLongestMatch data pos begin_ end_ previous mcl).length,
      byteAt data (pos - begin_ + k) =
        byteAt data (pos - begin_ + k -
          (findLongestMatch data pos begin_ end_ previous mcl).distance) := by
  have h := flmGo_sound data pos begin_ end_ previous hb hsound mcl
    (previous (pos % PreviousSize)) 0 ⟨1, 0⟩
    (by rw [Nat.sub_zero]) (by omega)
    (by intro k _; rw [Nat.sub_zero]) (by rw [MatchSound]; left; exact ⟨rfl, rfl⟩)
  rw [MatchSound] at h
  rw [findLongestMatch] at h4 ⊢
  rcases h with ⟨hl, -⟩ | ⟨a, b, c, d⟩
  · rw [hl] at h4
    exact absurd h4 (by decide)
  · exact ⟨a, b, c, d⟩

/-- Witness for C9: `data9` at position 4 with the sound one-entry chain
table `prev9` — the finder reports the 4-byte match at distance 4. -/
theorem c9_witness :
    (∀ b ∈ data9, b < 256) ∧ prevExactSound data9 prev9 0 4 ∧
    MinMatch ≤ (findLongestMatch data9 4 0 9 prev9 65535).length ∧
    1 ≤ (findLongestMatch data9 4 0 9 prev9 65535).distance ∧
    (findLongestMatch data9 4 0 9 prev9 65535).distance ≤ MaxDistance ∧
    0 + (findLongestMatch data9 4 0 9 prev9 65535).distance ≤ 4 ∧
    ∀ k < (findLongestMatch data9 4 0 9 prev9 65535).length,
      byteAt data9 (4 - 0 + k) =
        byteAt data9 (4 - 0 + k - (findLongestMatch data9 4 0 9 prev9 65535).distance) := by
  have h := c9_found_match_is_real data9 4 0 9 65535 prev9 (by decide) (by decide)
    (by unfold prevExactSound; decide) (by decide)
  exact ⟨by decide, by unfold prevExactSound; decide, by decide, h.1, h.2.1, h.2.2.1, h.2.2.2⟩

/-! ## C2 infrastructure: length-extension arithmetic -/

theorem extLen_lt15 (n : Nat) (h : n < 15) : extLen n = 0 := by
  rw [extLen, if_pos h]

theorem extLen_succ (n : Nat) (h : 1 ≤ n) :
    extLen n = extLen (n - 1) + (if 15 ≤ n ∧ (n - 15) % 255 = 0 then 1 else 0) := by
  rw [extLen, extLen]
  split <;> split <;> split <;> omega

theorem mext_eq_extLen (L : Nat) : mext L = extLen (L - 4) := by
  rw [mext, extLen]
  split <;> split <;> omega

theorem lenBytes_length : ∀ (fuel n : Nat), n / 255 < fuel →
    (lenBytes fuel n).length = n / 255 + 1 := by
  intro fuel
  induction fuel with
  | zero => intro n h; omega
  | succ fuel ih =>
    intro n h
    rw [lenBytes]
    by_cases h255 : 255 ≤ n
    · rw [if_pos h255]
      rw [List.length_cons, ih (n - 255) (by omega)]
      omega
    · rw [if_neg h255]
      rw [List.length_singleton]
      omega

/-- The number of bytes the run-length extension write emits is `extLen n`. -/
theorem runExt_length (n : Nat) :
    (if 15 ≤ n then lenBytes (n - 15 + 1) (n - 15) else []).length = extLen n := by
  by_cases h : 15 ≤ n
  · rw [if_pos h, lenBytes_length (n - 15 + 1) (n - 15) (by omega), extLen, if_neg (by omega)]
  · rw [if_neg h, extLen, if_pos (by omega)]
    rfl

/-! ## C2 infrastructure: the next-match position -/

theorem nmFrom_lit (m : List Match) (d bound j : Nat) (h1 : j < bound)
    (h2 : (m.getD j mdefault).isMatch = false) :
    nmFrom m d bound j = nmFrom m d bound (j + 1) := by
  rw [nmFrom, if_pos h1, if_neg (by rw [h2]; exact Bool.false_ne_true)]

theorem nmFrom_match (m : List Match) (d bound j : Nat) (h1 : j < bound)
    (h2 : (m.getD j mdefault).isMatch = true) :
    nmFrom m d bound j = j := by
  rw [nmFrom, if_pos h1, if_pos h2]

theorem nmFrom_ge (m : List Match) (d bound : Nat) (hbd : bound ≤ d) :
    ∀ (n j : Nat), bound - j ≤ n → j ≤ d → j ≤ nmFrom m d bound j := by
  intro n
  induction n with
  | zero =>
    intro j h1 h2
    rw [nmFrom_stop m d bound j (by omega)]
    exact h2
  | succ n ih =>
    intro j h1 h2
    by_cases hj : j < bound
    · rw [nmFrom]
      rw [if_pos hj]
      split
      · exact le_rfl
      · exact le_trans (Nat.le_succ j) (ih (j + 1) (by omega) (by omega))
    · rw [nmFrom_stop m d bound j (by omega)]
      exact h2

/-! ## C2 infrastructure: the cost the pass stores at a position -/

/-- The inner loop either returns its incoming state unchanged or commits to
a real match length. -/
theorem tryLengths_keep_or_match (cost : Nat → Nat) (i dist mlen : Nat) :
    ∀ (fuel L mc bl : Nat), MinMatch ≤ L →
      ((tryLengths cost i dist mlen fuel L (mc, bl)).1 = mc ∧
          (tryLengths cost i dist mlen fuel L (mc, bl)).2 = bl) ∨
        MinMatch ≤ (tryLengths cost i dist mlen fuel L (mc, bl)).2 := by
  intro fuel
  induction fuel with
  | zero =>
    intro L mc bl _
    left
    exact ⟨rfl, rfl⟩
  | succ fuel ih =>
    intro L mc bl hL
    rw [tryLengths]
    by_cases h1 : mlen < L
    · rw [if_pos h1]
      left
      exact ⟨rfl, rfl⟩
    · rw [if_neg h1]
      by_cases h2 : dist = 1 ∧ MaxSameLetter ≤ mlen
      · rw [if_pos h2]
        right
        show MinMatch ≤ mlen
        have hms : MaxSameLetter = 19 + 255 * 256 := rfl
        have hm4 : MinMatch = 4 := rfl
        omega
      · rw [if_neg h2]
        by_cases h19 : 19 ≤ L
        · rw [if_pos h19]
          by_cases hcc : cost (i + L) + 1 + 2 + 1 + (L - 19) / 255 ≤ mc
          · rw [if_pos hcc]
            rcases ih (L + 1) (cost (i + L) + 1 + 2 + 1 + (L - 19) / 255) L (by omega)
              with ⟨-, hr2⟩ | hr
            · right
              rw [hr2]
              exact hL
            · right
              exact hr
          · rw [if_neg hcc]
            exact ih (L + 1) mc bl (by omega)
        · rw [if_neg h19]
          by_cases hcc : cost (i + L) + 1 + 2 ≤ mc
          · rw [if_pos hcc]
            rcases ih (L + 1) (cost (i + L) + 1 + 2) L (by omega) with ⟨-, hr2⟩ | hr
            · right
              rw [hr2]
              exact hL
            · right
              exact hr
          · rw [if_neg hcc]
            exact ih (L + 1) mc bl (by omega)

/-- If the incoming state already prices a real match correctly, the final
state prices its chosen length correctly — including the
`distance == 1 && length >= MaxSameLetter` shortcut. -/
theorem tryLengths_match_cost (cost : Nat → Nat) (i dist mlen : Nat) :
    ∀ (fuel L mc bl : Nat),
      (MinMatch ≤ bl → mc = matchCost cost i bl) →
      MinMatch ≤ (tryLengths cost i dist mlen fuel L (mc, bl)).2 →
      (tryLengths cost i dist mlen fuel L (mc, bl)).1 =
        matchCost cost i (tryLengths cost i dist mlen fuel L (mc, bl)).2 := by
  intro fuel
  induction fuel with
  | zero =>
    intro L mc bl hpre hmin
    exact hpre hmin
  | succ fuel ih =>
    intro L mc bl hpre hmin
    rw [tryLengths] at hmin ⊢
    by_cases h1 : mlen < L
    · rw [if_pos h1] at hmin ⊢
      exact hpre hmin
    · rw [if_neg h1] at hmin ⊢
      by_cases h2 : dist = 1 ∧ MaxSameLetter ≤ mlen
      · rw [if_pos h2] at hmin ⊢
        show cost (i + mlen) + 1 + 2 + 1 + (mlen - 19) / 255 = matchCost cost i mlen
        have hms : MaxSameLetter = 19 + 255 * 256 := rfl
        rw [matchCost, mext, if_pos (by omega)]
        omega
      · rw [if_neg h2] at hmin ⊢
        by_cases h19 : 19 ≤ L
        · rw [if_pos h19] at hmin ⊢
          by_cases hcc : cost (i + L) + 1 + 2 + 1 + (L - 19) / 255 ≤ mc
          · rw [if_pos hcc] at hmin ⊢
            refine ih (L + 1) _ L ?_ hmin
            intro _
            rw [← currentCost_eq cost i L, if_pos h19]
          · rw [if_neg hcc] at hmin ⊢
            exact ih (L + 1) mc bl hpre hmin
        · rw [if_neg h19] at hmin ⊢
          by_cases hcc : cost (i + L) + 1 + 2 ≤ mc
          · rw [if_pos hcc] at hmin ⊢
            refine ih (L + 1) _ L ?_ hmin
            intro _
            rw [← currentCost_eq cost i L, if_neg h19]
          · rw [if_neg hcc] at hmin ⊢
            exact ih (L + 1) mc bl hpre hmin

/-- A literal decision keeps the literal cost. -/
theorem stepCore_lit_cost (B i : Nat) (a : Match) (c : Nat → Nat) (p : Nat)
    (h : (stepCore B i a c p).1.isMatch = false) :
    (stepCore B i a c p).2.1 = litBase c i p := by
  rw [stepCore_entry] at h
  rw [isMatch_false_iff] at h
  dsimp only at h
  rcases tryLengths_keep_or_match c i a.distance (clampLen B i a) (clampLen B i a + 1)
      MinMatch (litBase c i p) 1 le_rfl with ⟨h1, -⟩ | h2
  · rw [stepCore_costval]
    exact h1
  · omega

/-- A match decision prices the chosen length. -/
theorem stepCore_match_cost (B i : Nat) (a : Match) (c : Nat → Nat) (p : Nat)
    (h : (stepCore B i a c p).1.isMatch = true) :
    (stepCore B i a c p).2.1 = matchCost c i (stepCore B i a c p).1.length := by
  rw [stepCore_entry] at h ⊢
  rw [isMatch_iff] at h
  dsimp only at h ⊢
  rw [stepCore_costval]
  exact tryLengths_match_cost c i a.distance (clampLen B i a) (clampLen B i a + 1)
    MinMatch (litBase c i p) 1 (by intro hx; exact absurd hx (by decide)) h

/-! ## C2 infrastructure: the final cost array, position by position -/

theorem estimateCosts_length (m : List Match) : (estimateCosts m).length = m.length := by
  rw [estimateCosts, costLoop_length]

theorem estimateCostsCost_tail (m : List Match) (i : Nat)
    (h : m.length - BlockEndLiterals ≤ i) : estimateCostsCost m i = 0 :=
  costLoop_cost m.length (m.length - BlockEndLiterals) ⟨m, fun _ => 0, m.length⟩ i h

theorem estimateCosts_tail_entry (m : List Match) (i : Nat)
    (h : m.length - BlockEndLiterals ≤ i) :
    (estimateCosts m).getD i mdefault = m.getD i mdefault :=
  costLoop_matchv_getD m.length (m.length - BlockEndLiterals) ⟨m, fun _ => 0, m.length⟩ i h

/-- At a position decided literal, the final cost is the literal cost: one
byte plus the length-extension bump at the run up to the next match. -/
theorem estimateCosts_lit_cost (m : List Match) (i : Nat)
    (hi : i < m.length - BlockEndLiterals)
    (hl : ((estimateCosts m).getD i mdefault).isMatch = false) :
    estimateCostsCost m i = estimateCostsCost m (i + 1) + 1 +
      (if 15 ≤ nmFrom (estimateCosts m) m.length (m.length - BlockEndLiterals) (i + 1) - i ∧
          (nmFrom (estimateCosts m) m.length (m.length - BlockEndLiterals) (i + 1) - i - 15)
            % 255 = 0 then 1 else 0) := by
  obtain ⟨c, p, hc, hplm, hcost, hmv⟩ := costLoop_post m.length
    (m.length - BlockEndLiterals) ⟨m, fun _ => 0, m.length⟩ i hi (Nat.sub_le _ _)
  have hplm' : p = nmFrom (estimateCosts m) m.length (m.length - BlockEndLiterals) (i + 1) :=
    hplm
  subst hplm'
  have hml : (estimateCosts m).getD i mdefault =
      (stepCore m.length i (m.getD i mdefault) c
        (nmFrom (estimateCosts m) m.length (m.length - BlockEndLiterals) (i + 1))).1 := hmv
  rw [hml] at hl
  have hcost' : estimateCostsCost m i =
      (stepCore m.length i (m.getD i mdefault) c
        (nmFrom (estimateCosts m) m.length (m.length - BlockEndLiterals) (i + 1))).2.1 := hcost
  rw [hcost', stepCore_lit_cost m.length i (m.getD i mdefault) c _ hl, litBase]
  have hc1 : c (i + 1) = estimateCostsCost m (i + 1) := hc (i + 1) (by omega)
  rw [hc1]
  split <;> omega

/-- At a position decided match, the final cost prices the match: the costs
after the match plus token, distance and length-extension bytes. -/
theorem estimateCosts_match_cost (m : List Match) (i : Nat)
    (hi : i < m.length - BlockEndLiterals)
    (hm : ((estimateCosts m).getD i mdefault).isMatch = true) :
    estimateCostsCost m i =
      estimateCostsCost m (i + ((estimateCosts m).getD i mdefault).length) + 3 +
        mext ((estimateCosts m).getD i mdefault).length := by
  obtain ⟨c, p, hc, -, hcost, hmv⟩ := costLoop_post m.length
    (m.length - BlockEndLiterals) ⟨m, fun _ => 0, m.length⟩ i hi (Nat.sub_le _ _)
  have hml : (estimateCosts m).getD i mdefault =
      (stepCore m.length i (m.getD i mdefault) c p).1 := hmv
  have hcost' : estimateCostsCost m i =
      (stepCore m.length i (m.getD i mdefault) c p).2.1 := hcost
  rw [hml] at hm ⊢
  rw [hcost', stepCore_match_cost m.length i (m.getD i mdefault) c p hm, matchCost]
  have hlen4 : MinMatch ≤ (stepCore m.length i (m.getD i mdefault) c p).1.length := by
    rw [← isMatch_iff]
    exact hm
  have hc1 : c (i + (stepCore m.length i (m.getD i mdefault) c p).1.length) =
      estimateCostsCost m (i + (stepCore m.length i (m.getD i mdefault) c p).1.length) :=
    hc _ (by have hm4 : MinMatch = 4 := rfl; omega)
  rw [hc1]

/-- With an empty pending literal run, the run anchors are irrelevant. -/
theorem sbmGo_shift (m : List Match) (dataBlk : List Nat) (fuel i x y : Nat) :
    sbmGo m dataBlk fuel i x x = sbmGo m dataBlk fuel i y y := by
  cases fuel with
  | zero => rfl
  | succ fuel =>
    rw [sbmGo, sbmGo]
    by_cases h1 : i < m.length
    · rw [if_pos h1, if_pos h1]
      by_cases h2 : (m.getD i mdefault).isMatch = true
      · rw [if_pos h2, if_pos h2]
        simp [Nat.sub_self]
      · rw [if_neg h2, if_neg h2]
        dsimp only
        rw [if_pos rfl, if_pos rfl]
    · rw [if_neg h1, if_neg h1]

/-- The serialized size of the decided vector, from any walk state: emitted
bytes from position `i` with pending run `[f, i)` equal the final cost at `i`
plus the closing token, the trailing literals, and the pending-run bytes. -/
theorem sbm_emission (m : List Match) (dataBlk : List Nat)
    (htail : ∀ j < m.length, m.length - BlockEndLiterals ≤ j →
      (m.getD j mdefault).isMatch = false)
    (hdata : m.length ≤ dataBlk.length) :
    ∀ (fuel i f : Nat), f ≤ i → i < m.length → m.length - i < fuel →
      (sbmGo (estimateCosts m) dataBlk fuel i f i).length +
          extLen (nmFrom (estimateCosts m) m.length (m.length - BlockEndLiterals) i - i) =
        estimateCostsCost m i + 1 + min (m.length - i) BlockEndLiterals + (i - f) +
          extLen (nmFrom (estimateCosts m) m.length (m.length - BlockEndLiterals) i - f) := by
  intro fuel
  induction fuel with
  | zero =>
    intro i f h1 h2 h3
    omega
  | succ fuel ih =>
    intro i f hfi hiB hfuel
    have hb5 : BlockEndLiterals = 5 := rfl
    have hm4 : MinMatch = 4 := rfl
    have hML : (estimateCosts m).length = m.length := estimateCosts_length m
    rw [sbmGo, if_pos (show i < (estimateCosts m).length by omega)]
    by_cases hmi : ((estimateCosts m).getD i mdefault).isMatch = true
    · rw [if_pos hmi]
      dsimp only
      have hi5 : i < m.length - BlockEndLiterals := by
        by_contra hcon
        rw [estimateCosts_tail_entry m i (by omega), htail i hiB (by omega)] at hmi
        exact Bool.false_ne_true hmi
      have hlen4 : MinMatch ≤ ((estimateCosts m).getD i mdefault).length := by
        rw [← isMatch_iff]
        exact hmi
      have hcross : i + ((estimateCosts m).getD i mdefault).length + BlockEndLiterals ≤
          m.length := estimateCosts_no_cross m i htail hlen4
      have hlast : ¬ (i + ((estimateCosts m).getD i mdefault).length =
          (estimateCosts m).length) := by omega
      rw [if_neg hlast, if_neg hlast]
      rw [List.length_cons, List.length_append, List.length_append, List.length_cons,
        List.length_cons, List.length_append]
      rw [runExt_length (i - f), runExt_length (((estimateCosts m).getD i mdefault).length - 4)]
      rw [List.length_take, List.length_drop]
      rw [sbmGo_shift (estimateCosts m) dataBlk fuel
        (i + ((estimateCosts m).getD i mdefault).length) 0
        (i + ((estimateCosts m).getD i mdefault).length)]
      have hrec := ih (i + ((estimateCosts m).getD i mdefault).length)
        (i + ((estimateCosts m).getD i mdefault).length) le_rfl (by omega) (by omega)
      have hnm : nmFrom (estimateCosts m) m.length (m.length - BlockEndLiterals) i = i :=
        nmFrom_match (estimateCosts m) m.length (m.length - BlockEndLiterals) i
          (by omega) hmi
      have hcost := estimateCosts_match_cost m i hi5 hmi
      have hmx : mext ((estimateCosts m).getD i mdefault).length =
          extLen (((estimateCosts m).getD i mdefault).length - 4) :=
        mext_eq_extLen ((estimateCosts m).getD i mdefault).length
      have hz1 : extLen (i - i) = 0 := extLen_lt15 _ (by omega)
      have hz2 : extLen (i + ((estimateCosts m).getD i mdefault).length -
          (i + ((estimateCosts m).getD i mdefault).length)) = 0 := extLen_lt15 _ (by omega)
      rw [hnm]
      omega
    · rw [if_neg hmi]
      have hmi' : ((estimateCosts m).getD i mdefault).isMatch = false := by
        rw [← Bool.not_eq_true]
        exact hmi
      dsimp only
      rw [show (if f = i then i else f) = f from by split <;> omega, ite_self]
      by_cases hflush : i + 1 = (estimateCosts m).length
      · rw [if_pos hflush]
        have hiB1 : i + 1 = m.length := by omega
        rw [List.length_cons, List.length_append, runExt_length (i + 1 - f),
          List.length_take, List.length_drop]
        have hnm : nmFrom (estimateCosts m) m.length (m.length - BlockEndLiterals) i =
            m.length := nmFrom_stop _ _ _ _ (by omega)
        have hC0 : estimateCostsCost m i = 0 := estimateCostsCost_tail m i (by omega)
        have hz1 : extLen (m.length - i) = 0 := extLen_lt15 _ (by omega)
        rw [hnm, hiB1]
        omega
      · rw [if_neg hflush]
        have hrec := ih (i + 1) f (by omega) (by omega) (by omega)
        by_cases hi5 : i < m.length - BlockEndLiterals
        · have hnm : nmFrom (estimateCosts m) m.length (m.length - BlockEndLiterals) i =
              nmFrom (estimateCosts m) m.length (m.length - BlockEndLiterals) (i + 1) :=
            nmFrom_lit (estimateCosts m) m.length (m.length - BlockEndLiterals) i
              (by omega) hmi'
          have hcost := estimateCosts_lit_cost m i hi5 hmi'
          have hge : i + 1 ≤
              nmFrom (estimateCosts m) m.length (m.length - BlockEndLiterals) (i + 1) :=
            nmFrom_ge (estimateCosts m) m.length (m.length - BlockEndLiterals)
              (Nat.sub_le _ _) (m.length - BlockEndLiterals) (i + 1) (by omega) (by omega)
          have hstep := extLen_succ
            (nmFrom (estimateCosts m) m.length (m.length - BlockEndLiterals) (i + 1) - i)
            (by omega)
          have heq : nmFrom (estimateCosts m) m.length (m.length - BlockEndLiterals) (i + 1)
              - i - 1 =
              nmFrom (estimateCosts m) m.length (m.length - BlockEndLiterals) (i + 1) -
                (i + 1) := by omega
          rw [heq] at hstep
          rw [hnm]
          omega
        · have hC0 : estimateCostsCost m i = 0 := estimateCostsCost_tail m i (by omega)
          have hC1 : estimateCostsCost m (i + 1) = 0 :=
            estimateCostsCost_tail m (i + 1) (by omega)
          have hnm : nmFrom (estimateCosts m) m.length (m.length - BlockEndLiterals) i =
              m.length := nmFrom_stop _ _ _ _ (by omega)
          have hnm1 : nmFrom (estimateCosts m) m.length (m.length - BlockEndLiterals)
              (i + 1) = m.length := nmFrom_stop _ _ _ _ (by omega)
          have hz1 : extLen (m.length - i) = 0 := extLen_lt15 _ (by omega)
          have hz2 : extLen (m.length - (i + 1)) = 0 := extLen_lt15 _ (by omega)
          rw [hnm]
          rw [hnm1] at hrec
          omega

/-- C2 (amended): the cost array is not itself the minimal encoding size of
the suffix (see the counterexample), but it determines the emitted block
size exactly: for a block whose last `BlockEndLiterals` candidates are
literals, `selectBestMatches` emits exactly `cost[0] + 6` bytes — the final
cost plus the closing token byte and the `BlockEndLiterals` trailing literal
bytes it does not count. -/
theorem c2_block_bytes_eq_cost (m : List Match) (dataBlk : List Nat)
    (htail : ∀ j < m.length, m.length - BlockEndLiterals ≤ j →
      (m.getD j mdefault).isMatch = false)
    (hB : BlockEndNoMatch < m.length)
    (hdata : m.length ≤ dataBlk.length) :
    (selectBestMatches (estimateCosts m) dataBlk).length = estimateCostsCost m 0 + 6 := by
  have hML : (estimateCosts m).length = m.length := estimateCosts_length m
  have hb12 : BlockEndNoMatch = 12 := rfl
  have hb5 : BlockEndLiterals = 5 := rfl
  rw [selectBestMatches, hML]
  have h := sbm_emission m dataBlk htail hdata (m.length + 1) 0 0 le_rfl (by omega) (by omega)
  omega

/-- Witness for the amended C2 statement: the all-literal 13-byte block
`data13` serializes to 14 bytes and its `cost[0]` is 8. -/
theorem c2_witness :
    (∀ j < (firstBlockMatches data13 65535).length,
      (firstBlockMatches data13 65535).length - BlockEndLiterals ≤ j →
      ((firstBlockMatches data13 65535).getD j mdefault).isMatch = false) ∧
    BlockEndNoMatch < (firstBlockMatches data13 65535).length ∧
    (firstBlockMatches data13 65535).length ≤ data13.length ∧
    (selectBestMatches (estimateCosts (firstBlockMatches data13 65535)) data13).length =
      estimateCostsCost (firstBlockMatches data13 65535) 0 + 6 :=
  ⟨by decide, by decide, by decide,
    c2_block_bytes_eq_cost (firstBlockMatches data13 65535) data13 (by decide) (by decide)
      (by decide)⟩

/-! ## C8: the empty input -/

/-- C8: compressing an empty input yields exactly the 7-byte frame header
`04 22 4D 18 40 70 DF` followed by the 4-byte end-of-stream marker
`00 00 00 00`, with no block in between, at every compression level. -/
theorem c8_empty_input_frame (maxChainLength : Nat) :
    compress [] maxChainLength =
      [0x04, 0x22, 0x4D, 0x18, 0x40, 0x70, 0xDF, 0x00, 0x00, 0x00, 0x00] := rfl

/-! ## C10: the output does not depend on the uninitialized distance -/

theorem flmGo_zero (data : List Nat) (pos begin_ end_ : Nat) (previous : Nat → Nat)
    (d td : Nat) (r : Match) :
    flmGo data pos begin_ end_ previous 0 d td r = r := by
  rw [flmGo]
  split
  · rfl
  · dsimp only
    split
    · rfl
    · rfl

/-- The chain walk reads only the `length` of the incoming result: two
length-equal starts either produce the same answer or are both returned
untouched. -/
theorem flmGo_len_congr (data : List Nat) (pos begin_ end_ : Nat) (previous : Nat → Nat) :
    ∀ (fuel d td : Nat) (r s : Match), r.length = s.length →
      flmGo data pos begin_ end_ previous fuel d td r =
          flmGo data pos begin_ end_ previous fuel d td s ∨
        (flmGo data pos begin_ end_ previous fuel d td r = r ∧
          flmGo data pos begin_ end_ previous fuel d td s = s) := by
  intro fuel
  induction fuel with
  | zero =>
    intro d td r s hlen
    right
    exact ⟨flmGo_zero data pos begin_ end_ previous d td r,
      flmGo_zero data pos begin_ end_ previous d td s⟩
  | succ fuel ih =>
    intro d td r s hlen
    by_cases hd0 : d = NoPrevious
    · right
      constructor <;> rw [flmGo, if_pos hd0]
    · by_cases hmax : MaxDistance < td + d
      · right
        constructor <;> (rw [flmGo, if_neg hd0]; dsimp only; rw [if_pos hmax])
      · rw [flmGo_succ data pos begin_ end_ previous fuel d td r hd0 hmax,
          flmGo_succ data pos begin_ end_ previous fuel d td s hd0 hmax, hlen]
        by_cases hstop : end_ < pos + s.length + 1
        · right
          rw [if_pos hstop, if_pos hstop]
          exact ⟨rfl, rfl⟩
        · rw [if_neg hstop, if_neg hstop]
          by_cases hback : flmBack data (pos - begin_) (td + d) (s.length - 3 + 1)
              (s.length - 3) = false
          · rw [if_pos hback, if_pos hback]
            exact ih _ (td + d) r s hlen
          · rw [if_neg hback, if_neg hback]
            left
            rfl

/-- `findLongestMatch` with the indeterminate initial distance `u` agrees
with the `u = 0` version, except that a fruitless search returns the two
length-1 placeholders. -/
theorem findLongestMatchU_MRel (data : List Nat) (pos begin_ end_ : Nat)
    (previous : Nat → Nat) (mcl u : Nat) :
    MRel (findLongestMatchU data pos begin_ end_ previous mcl u)
      (findLongestMatch data pos begin_ end_ previous mcl) := by
  rw [MRel, findLongestMatchU, findLongestMatch]
  rcases flmGo_len_congr data pos begin_ end_ previous mcl (previous (pos % PreviousSize)) 0
      ⟨1, u⟩ ⟨1, 0⟩ rfl with h | ⟨h1, h2⟩
  · left
    exact h
  · right
    rw [h1, h2]
    exact ⟨rfl, rfl⟩

theorem getD_set_cases (l : List Match) (n i : Nat) (a : Match) :
    (l.set n a).getD i mdefault =
      if i = n ∧ i < l.length then a else l.getD i mdefault := by
  by_cases h1 : i = n
  · subst h1
    by_cases h2 : i < l.length
    · rw [if_pos ⟨rfl, h2⟩, List.getD, List.get?_eq_getElem?, List.getElem?_set_self h2]
      rfl
    · rw [if_neg (fun hx => h2 hx.2), List.set_eq_of_length_le (by omega)]
  · rw [if_neg (fun hx => h1 hx.1), List.getD, List.getD, List.get?_eq_getElem?,
      List.get?_eq_getElem?, List.getElem?_set_ne (fun hx => h1 hx.symm)]

theorem MVRel_refl (x : List Match) : MVRel x x := ⟨rfl, fun _ => Or.inl rfl⟩

theorem MVRel_set (x y : List Match) (n : Nat) (a b : Match) (hxy : MVRel x y)
    (hab : MRel a b) : MVRel (x.set n a) (y.set n b) := by
  obtain ⟨hlen, hp⟩ := hxy
  refine ⟨by rw [List.length_set, List.length_set, hlen], ?_⟩
  intro i
  rw [getD_set_cases, getD_set_cases, hlen]
  split
  · exact hab
  · exact hp i

theorem tryLengths_one (c : Nat → Nat) (i d mc : Nat) :
    tryLengths c i d 1 (1 + 1) MinMatch (mc, 1) = (mc, 1) := by
  rw [tryLengths]
  rw [if_pos (by decide : (1 : Nat) < MinMatch)]

/-- The cost-pass body on a literal placeholder, whatever its distance. -/
theorem stepCore_of_lit (B i d : Nat) (c : Nat → Nat) (p : Nat) :
    stepCore B i ⟨1, d⟩ c p = (⟨1, NoPrevious⟩, litBase c i p, p) := by
  refine Prod.ext ?_ (Prod.ext ?_ ?_)
  · rw [stepCore_entry, clampLen_literal, tryLengths_one]
    dsimp only
    rw [if_pos rfl]
  · rw [stepCore_costval, clampLen_literal, tryLengths_one]
  · rw [stepCore_plm, clampLen_literal, tryLengths_one]
    dsimp only
    rw [if_neg (by decide : ¬ MinMatch ≤ 1)]

/-- The cost-pass body cannot see a literal placeholder's distance. -/
theorem stepCore_MRel (B i : Nat) (a b : Match) (c : Nat → Nat) (p : Nat)
    (h : MRel a b) : stepCore B i a c p = stepCore B i b c p := by
  rcases h with rfl | ⟨ha, hb⟩
  · rfl
  · obtain ⟨al, ad⟩ := a
    obtain ⟨bl, bd⟩ := b
    have ha' : al = 1 := ha
    have hb' : bl = 1 := hb
    subst ha' hb'
    rw [stepCore_of_lit, stepCore_of_lit]

/-- The cost pass maps related vectors to the same costs and related
(entry-wise equal where written) vectors. -/
theorem costLoop_MVRel (B : Nat) :
    ∀ (k : Nat) (x y : List Match) (c : Nat → Nat) (p : Nat), MVRel x y →
      (costLoop B k ⟨x, c, p⟩).cost = (costLoop B k ⟨y, c, p⟩).cost ∧
      (costLoop B k ⟨x, c, p⟩).posLastMatch = (costLoop B k ⟨y, c, p⟩).posLastMatch ∧
      MVRel (costLoop B k ⟨x, c, p⟩).matchv (costLoop B k ⟨y, c, p⟩).matchv := by
  intro k
  induction k with
  | zero =>
    intro x y c p h
    exact ⟨rfl, rfl, h⟩
  | succ k ih =>
    intro x y c p h
    have hstep : stepCore B k (x.getD k mdefault) c p =
        stepCore B k (y.getD k mdefault) c p := stepCore_MRel B k _ _ c p (h.2 k)
    have hx : costLoop B (k + 1) ⟨x, c, p⟩ = costLoop B k
        ⟨x.set k (stepCore B k (x.getD k mdefault) c p).1,
          fun j => if j = k then (stepCore B k (x.getD k mdefault) c p).2.1 else c j,
          (stepCore B k (x.getD k mdefault) c p).2.2⟩ := rfl
    have hy : costLoop B (k + 1) ⟨y, c, p⟩ = costLoop B k
        ⟨y.set k (stepCore B k (y.getD k mdefault) c p).1,
          fun j => if j = k then (stepCore B k (y.getD k mdefault) c p).2.1 else c j,
          (stepCore B k (y.getD k mdefault) c p).2.2⟩ := rfl
    rw [hx, hy, ← hstep]
    exact ih _ _ _ _ (MVRel_set x y k _ _ h (Or.inl rfl))

theorem estimateCosts_MVRel (x y : List Match) (h : MVRel x y) :
    MVRel (estimateCosts x) (estimateCosts y) := by
  have hlen := h.1
  rw [estimateCosts, estimateCosts, hlen]
  exact (costLoop_MVRel y.length (y.length - BlockEndLiterals) x y (fun _ => 0) y.length h).2.2

/-- The serializer cannot see a literal placeholder's distance. -/
theorem sbmGo_MVRel (x y : List Match) (dataBlk : List Nat) (h : MVRel x y) :
    ∀ (fuel off lf lt : Nat),
      sbmGo x dataBlk fuel off lf lt = sbmGo y dataBlk fuel off lf lt := by
  intro fuel
  induction fuel with
  | zero =>
    intro off lf lt
    rfl
  | succ fuel ih =>
    intro off lf lt
    rw [sbmGo, sbmGo, ← h.1]
    by_cases h1 : off < x.length
    · rw [if_pos h1, if_pos h1]
      rcases h.2 off with he | ⟨hx1, hy1⟩
      · rw [he]
        simp only [ih]
      · have hm4 : MinMatch = 4 := rfl
        have hex : (x.getD off mdefault).isMatch = false := by
          rw [isMatch_false_iff]
          omega
        have hey : (y.getD off mdefault).isMatch = false := by
          rw [isMatch_false_iff]
          omega
        rw [if_neg (show ¬ ((x.getD off mdefault).isMatch = true) from by
          rw [hex]; exact Bool.false_ne_true)]
        rw [if_neg (show ¬ ((y.getD off mdefault).isMatch = true) from by
          rw [hey]; exact Bool.false_ne_true)]
        simp only [ih]
    · rw [if_neg h1, if_neg h1]

theorem selectBestMatches_MVRel (x y : List Match) (dataBlk : List Nat) (h : MVRel x y) :
    selectBestMatches x dataBlk = selectBestMatches y dataBlk := by
  rw [selectBestMatches, selectBestMatches, ← h.1]
  exact sbmGo_MVRel x y dataBlk h (x.length + 1) 0 0 0

theorem MFRel_intro (s t : MFState) (h1 : s.lastHash = t.lastHash)
    (h2 : s.prevHash = t.prevHash) (h3 : s.prevExact = t.prevExact)
    (h4 : MVRel s.matchv t.matchv) (h5 : s.skipMatches = t.skipMatches)
    (h6 : s.lazyEvaluation = t.lazyEvaluation) : MFRel s t := by
  rw [MFRel]
  exact ⟨h1, h2, h3, h4, h5, h6⟩

/-- The final state write of the match-finder body, for any two `MRel`-related
finder results. -/
theorem mfFinal_rel (lhx phx pex : Nat → Nat) (smv tmv : List Match) (n : Nat)
    (lu l0 : Match) (c2 : Prop) [Decidable c2] (skalt : Nat) (lzalt : Bool)
    (hmv : MVRel smv tmv) (hrel : MRel lu l0) :
    MFRel
      ⟨lhx, phx, pex, smv.set n lu,
        if lu.isMatch ∧ c2 then lu.length else skalt,
        if lu.isMatch ∧ c2 then decide (skalt = 0) else lzalt⟩
      ⟨lhx, phx, pex, tmv.set n l0,
        if l0.isMatch ∧ c2 then l0.length else skalt,
        if l0.isMatch ∧ c2 then decide (skalt = 0) else lzalt⟩ := by
  rcases hrel with rfl | ⟨h1, h0⟩
  · exact MFRel_intro _ _ rfl rfl rfl (MVRel_set _ _ _ _ _ hmv (Or.inl rfl)) rfl rfl
  · have hm4 : MinMatch = 4 := rfl
    have hmu : lu.isMatch = false := by
      rw [isMatch_false_iff]
      omega
    have hm0 : l0.isMatch = false := by
      rw [isMatch_false_iff]
      omega
    have hnu : ¬ (lu.isMatch = true ∧ c2) :=
      fun hx => absurd hx.1 (by rw [hmu]; exact Bool.false_ne_true)
    have hn0 : ¬ (l0.isMatch = true ∧ c2) :=
      fun hx => absurd hx.1 (by rw [hm0]; exact Bool.false_ne_true)
    rw [if_neg hnu, if_neg hnu, if_neg hn0, if_neg hn0]
    exact MFRel_intro _ _ rfl rfl rfl (MVRel_set _ _ _ _ _ hmv (Or.inr ⟨h1, h0⟩)) rfl rfl

/-- One match-finder step preserves the state relation, whatever the
indeterminate `u`. -/
theorem matchFinderStepU_rel (data : List Nat) (dataZero lastBlock nextBlock mcl u : Nat)
    (unc : Bool) (s t : MFState) (p : Nat) (hrel : MFRel s t) :
    MFRel (matchFinderStepU data dataZero lastBlock nextBlock mcl u unc s p)
      (matchFinderStep data dataZero lastBlock nextBlock mcl unc t p) := by
  obtain ⟨slh, sph, spe, smv, ssk, slz⟩ := s
  obtain ⟨tlh, tph, tpe, tmv, tsk, tlz⟩ := t
  rw [MFRel] at hrel
  obtain ⟨h1, h2, h3, hmv, h5, h6⟩ := hrel
  dsimp only at h1 h2 h3 hmv h5 h6
  subst h1 h2 h3 h5 h6
  rw [matchFinderStepU, matchFinderStep]
  by_cases hskip : nextBlock < p + BlockEndNoMatch ∨ unc = true
  · rw [if_pos hskip, if_pos hskip]
    exact MFRel_intro _ _ rfl rfl rfl hmv rfl rfl
  · rw [if_neg hskip, if_neg hskip]
    rcases hmv.2 (p - 1 - lastBlock) with he | ⟨hl1, hl2⟩
    · rw [he]
      by_cases hcond : lastBlock < p ∧
          byteAt data (p - dataZero) = byteAt data (p - 1 - dataZero) ∧
          (tmv.getD (p - 1 - lastBlock) mdefault).distance = 1 ∧
          MaxSameLetter < (tmv.getD (p - 1 - lastBlock) mdefault).length
      · rw [if_pos hcond, if_pos hcond]
        exact MFRel_intro _ _ rfl rfl rfl (MVRel_set _ _ _ _ _ hmv (Or.inl rfl)) rfl rfl
      · rw [if_neg hcond, if_neg hcond]
        dsimp only
        split
        · exact MFRel_intro _ _ rfl rfl rfl hmv rfl rfl
        · split
          · exact MFRel_intro _ _ rfl rfl rfl hmv rfl rfl
          · split
            · exact MFRel_intro _ _ rfl rfl rfl hmv rfl rfl
            · split
              · exact MFRel_intro _ _ rfl rfl rfl hmv rfl rfl
              · exact mfFinal_rel _ _ _ _ _ _ _ _ _ _ _ hmv
                  (findLongestMatchU_MRel data p dataZero _ _ mcl u)
    · have hclit : ∀ (e : Match), e.length = 1 →
          ¬ (lastBlock < p ∧ byteAt data (p - dataZero) = byteAt data (p - 1 - dataZero) ∧
            e.distance = 1 ∧ MaxSameLetter < e.length) := by
        intro e he hx
        obtain ⟨-, -, -, h4⟩ := hx
        have hms : MaxSameLetter = 19 + 255 * 256 := rfl
        omega
      rw [if_neg (hclit _ hl1), if_neg (hclit _ hl2)]
      dsimp only
      split
      · exact MFRel_intro _ _ rfl rfl rfl hmv rfl rfl
      · split
        · exact MFRel_intro _ _ rfl rfl rfl hmv rfl rfl
        · split
          · exact MFRel_intro _ _ rfl rfl rfl hmv rfl rfl
          · split
            · exact MFRel_intro _ _ rfl rfl rfl hmv rfl rfl
            · exact mfFinal_rel _ _ _ _ _ _ _ _ _ _ _ hmv
                (findLongestMatchU_MRel data p dataZero _ _ mcl u)

/-- The whole match-finding pass preserves the state relation. -/
theorem matchFinderPassU_rel (data : List Nat) (dataZero lastBlock nextBlock mcl u : Nat)
    (unc : Bool) (startPos : Nat) (s t : MFState) (hrel : MFRel s t) :
    MFRel (matchFinderPassU data dataZero lastBlock nextBlock mcl u unc startPos s)
      (matchFinderPass data dataZero lastBlock nextBlock mcl unc startPos t) := by
  rw [matchFinderPassU, matchFinderPass]
  generalize List.range (nextBlock - startPos) = l
  induction l generalizing s t with
  | nil => exact hrel
  | cons a rest ih =>
    rw [List.foldl_cons, List.foldl_cons]
    exact ih _ _ (matchFinderStepU_rel data dataZero lastBlock nextBlock mcl u unc s t
      (startPos + a) hrel)

/-- The block loop is insensitive to the indeterminate `u`. -/
theorem blockLoopU_eq (mcl u : Nat) (unc : Bool) :
    ∀ (fuel : Nat) (s0 : CState),
      blockLoopU mcl u unc fuel s0 = blockLoop mcl unc fuel s0 := by
  intro fuel
  induction fuel with
  | zero =>
    intro s0
    rfl
  | succ fuel ih =>
    intro s0
    rw [blockLoopU, blockLoop]
    by_cases hend : (readLoop (s0.remaining.length + 1) s0).nextBlock =
        (readLoop (s0.remaining.length + 1) s0).numRead
    · rw [if_pos hend, if_pos hend]
    · rw [if_neg hend, if_neg hend]
      dsimp only
      generalize readLoop (s0.remaining.length + 1) s0 = q
      have hrel := matchFinderPassU_rel q.data q.dataZero q.nextBlock
        (min (q.nextBlock + MaxBlockSize) q.numRead) mcl u unc
        (q.nextBlock - (if BlockEndNoMatch < q.dataZero then BlockEndNoMatch else q.dataZero))
        ⟨q.lastHash, q.prevHash, q.prevExact,
          List.replicate (min (q.nextBlock + MaxBlockSize) q.numRead - q.nextBlock) mdefault,
          0, false⟩
        ⟨q.lastHash, q.prevHash, q.prevExact,
          List.replicate (min (q.nextBlock + MaxBlockSize) q.numRead - q.nextBlock) mdefault,
          0, false⟩
        (MFRel_intro _ _ rfl rfl rfl (MVRel_refl _) rfl rfl)
      rw [MFRel] at hrel
      obtain ⟨e1, e2, e3, emv, -, -⟩ := hrel
      rw [e1, e2, e3, ih]
      by_cases hu : unc = true
      · rw [if_pos hu, if_pos hu]
      · rw [if_neg hu, if_neg hu]
        by_cases hopt : BlockEndNoMatch <
            min (q.nextBlock + MaxBlockSize) q.numRead - q.nextBlock ∧
            ShortChainsGreedy < mcl
        · rw [if_pos hopt, if_pos hopt]
          rw [selectBestMatches_MVRel _ _ (q.data.drop (q.nextBlock - q.dataZero))
            (estimateCosts_MVRel _ _ emv)]
        · rw [if_neg hopt, if_neg hopt]
          rw [selectBestMatches_MVRel _ _ (q.data.drop (q.nextBlock - q.dataZero)) emv]

theorem compressU_eq (input : List Nat) (mcl u : Nat) :
    compressU input mcl u = compress input mcl := by
  rw [compressU, compress, blockLoopU_eq]

/-- C10: `compress` is deterministic — its output is a function of the input
bytes and `maxChainLength` alone.  In the source, the only quantity of a run
not determined by those two is the value of the uninitialized
`Match::distance` field in `findLongestMatch`; with that value made an
explicit parameter, two runs over identical inputs produce byte-for-byte
identical output whatever the two indeterminates were. -/
theorem c10_deterministic (input : List Nat) (maxChainLength u v : Nat) :
    compressU input maxChainLength u = compressU input maxChainLength v := by
  rw [compressU_eq, compressU_eq]

end Smallz4
